import Mathlib

/-!
# Burrow — verification of the protocol-core specification against the source

Shallow embedding of the parts of the Burrow repository (a Nostr/MLS group
messaging client) that the specification's claims are about:

* the Access-Control Evaluator (`src/cli/src/acl/access_control.rs`),
* the audit log and the daemon notification handler
  (`src/cli/src/acl/audit.rs`, `src/cli/src/commands/daemon.rs`),
* message persistence and presentation (`src/cli/src/storage/file_store.rs`),
* key-package selection (`src/app/rust/src/api/invite.rs`),
* the media pipeline (`src/app/rust/src/api/media.rs`),
* call signaling (`src/app/rust/src/api/call_signaling.rs`),
* the group engine's epoch discipline (spec-modelled, see below).

Rust `String`s are modelled as Lean `String`s; where the Rust code uses
library string operations that Lean's `String` does not expose to the kernel,
the same operation is defined here over `List Char` and applied to `.data`.
Machine integers (`u32`, `u64`) are modelled as `Nat` with explicit bounds or
`% 2 ^ w` where overflow matters. Fallible Rust functions returning
`Result`/`Option` are modelled with `Except`/`Option`.
-/

set_option maxRecDepth 40000

deriving instance DecidableEq for Except

namespace Burrow

/-! ## Hex encoding and decoding

Modelled from the `hex` crate (an external dependency of the source):
`hex::decode` accepts an even-length string of upper- or lower-case hex
digits; `hex::encode` emits lower-case digits. -/

/-- Value of a single hex digit, upper or lower case (`hex` crate
behaviour), by codepoint. -/
def hexVal (c : Char) : Option Nat :=
  if 48 ≤ c.toNat ∧ c.toNat ≤ 57 then some (c.toNat - 48)
  else if 97 ≤ c.toNat ∧ c.toNat ≤ 102 then some (c.toNat - 87)
  else if 65 ≤ c.toNat ∧ c.toNat ≤ 70 then some (c.toNat - 55)
  else none

/-- Whether a character is a lower-case hex digit (`0-9a-f`). -/
def isLowerHexDigit (c : Char) : Bool :=
  decide ((48 ≤ c.toNat ∧ c.toNat ≤ 57) ∨ (97 ≤ c.toNat ∧ c.toNat ≤ 102))

/-- Lower-case hex digit for a value `0..15` (the `0123456789abcdef`
table of `hex::encode`, by codepoint). -/
def hexDigitChar (n : Nat) : Char :=
  Char.ofNat (if n < 10 then 48 + n else 87 + n)

/-- `hex::decode` over a character list: pairs of digits to bytes. -/
def hexDecodeList : List Char → Option (List Nat)
  | [] => some []
  | [_] => none
  | c1 :: c2 :: rest =>
    match hexVal c1, hexVal c2, hexDecodeList rest with
    | some v1, some v2, some bs => some ((16 * v1 + v2) :: bs)
    | _, _, _ => none

/-- `hex::encode` over a byte list: each byte to two lower-case digits. -/
def hexEncodeList : List Nat → List Char
  | [] => []
  | b :: rest => hexDigitChar (b / 16) :: hexDigitChar (b % 16) :: hexEncodeList rest

/-! ## Bech32 (BIP-173)

Modelled from the `bech32` crate (an external dependency of the source):
encoding with the `Bech32` checksum as `bech32::encode::<Bech32>` does, and
decoding as `bech32::decode` does (split at the last `'1'`, reject mixed
case, verify the checksum, regroup 5-bit values into bytes discarding the
zero padding). -/

/-- The bech32 data-character set. -/
def BECH32_CHARSET : List Char := "qpzry9x8gf2tvdw0s3jn54khce6mua7l".data

/-- Character for a 5-bit value. -/
def feToChar (v : Nat) : Char := BECH32_CHARSET.getD v 'q'

/-- 5-bit value of a data character, if it is one. -/
def charToFe (c : Char) : Option Nat := BECH32_CHARSET.findIdx? (· = c)

/-- All data characters to 5-bit values; `none` if any is invalid. -/
def charsToFes : List Char → Option (List Nat)
  | [] => some []
  | c :: r =>
    match charToFe c, charsToFes r with
    | some v, some vs => some (v :: vs)
    | _, _ => none

/-- The eight bits of a byte, most significant first. -/
def natBits8 (b : Nat) : List Bool :=
  [b.testBit 7, b.testBit 6, b.testBit 5, b.testBit 4,
   b.testBit 3, b.testBit 2, b.testBit 1, b.testBit 0]

/-- The five bits of a 5-bit group, most significant first. -/
def natBits5 (v : Nat) : List Bool :=
  [v.testBit 4, v.testBit 3, v.testBit 2, v.testBit 1, v.testBit 0]

/-- A bit list (most significant first) back to a number. -/
def bitsToNat (l : List Bool) : Nat := l.foldl (fun a b => 2 * a + b.toNat) 0

/-- Split a bit list into groups of five; a short remainder stays as a last group. -/
def chunk5 : List Bool → List (List Bool)
  | a :: b :: c :: d :: e :: r => [a, b, c, d, e] :: chunk5 r
  | [] => []
  | r => [r]

/-- Split a bit list into groups of eight; a short remainder stays as a last group. -/
def chunk8 : List Bool → List (List Bool)
  | a :: b :: c :: d :: e :: f :: g :: h :: r => [a, b, c, d, e, f, g, h] :: chunk8 r
  | [] => []
  | r => [r]

/-- Regroup bytes into 5-bit groups, zero-padding the last group
(`convertbits(8, 5, pad=true)` of BIP-173). -/
def bytesToFes (bytes : List Nat) : List Nat :=
  let bits := bytes.flatMap natBits8
  let pad := (5 - bits.length % 5) % 5
  (chunk5 (bits ++ List.replicate pad false)).map bitsToNat

/-- Regroup 5-bit groups into bytes, requiring at most four padding bits,
all zero (`convertbits(5, 8, pad=false)` of BIP-173). -/
def fesToBytes (fes : List Nat) : Option (List Nat) :=
  let bits := fes.flatMap natBits5
  let extra := bits.length % 8
  if 5 ≤ extra then none
  else if (bits.drop (bits.length - extra)).all (fun b => !b) then
    some ((chunk8 (bits.take (bits.length - extra))).map bitsToNat)
  else none

/-- One step of the BIP-173 checksum polynomial. -/
def polymodStep (chk v : Nat) : Nat :=
  (((chk &&& 0x1ffffff) <<< 5) ^^^ v)
    ^^^ (if (chk >>> 25) &&& 1 ≠ 0 then 0x3b6a57b2 else 0)
    ^^^ (if (chk >>> 25) &&& 2 ≠ 0 then 0x26508e6d else 0)
    ^^^ (if (chk >>> 25) &&& 4 ≠ 0 then 0x1ea119fa else 0)
    ^^^ (if (chk >>> 25) &&& 8 ≠ 0 then 0x3d4233dd else 0)
    ^^^ (if (chk >>> 25) &&& 16 ≠ 0 then 0x2a1462b3 else 0)

/-- The BIP-173 checksum polynomial. -/
def polymod (vs : List Nat) : Nat := vs.foldl polymodStep 1

/-- The human-readable part, expanded for checksumming. -/
def hrpExpand (hrp : List Char) : List Nat :=
  hrp.map (fun c => c.toNat >>> 5) ++ [0] ++ hrp.map (fun c => c.toNat &&& 31)

/-- The six checksum groups appended to the data part (`Bech32` variant,
checksum constant 1). -/
def createChecksum (hrp : List Char) (data : List Nat) : List Nat :=
  let pm := polymod (hrpExpand hrp ++ data ++ [0, 0, 0, 0, 0, 0]) ^^^ 1
  [(pm >>> 25) &&& 31, (pm >>> 20) &&& 31, (pm >>> 15) &&& 31,
   (pm >>> 10) &&& 31, (pm >>> 5) &&& 31, pm &&& 31]

/-- Checksum verification (`Bech32` variant). -/
def verifyChecksum (hrp : List Char) (data : List Nat) : Bool :=
  polymod (hrpExpand hrp ++ data) == 1

/-- `bech32::encode::<Bech32>` over character lists. -/
def bech32EncodeList (hrp : List Char) (bytes : List Nat) : List Char :=
  let data := bytesToFes bytes
  hrp ++ '1' :: (data ++ createChecksum hrp data).map feToChar

/-- Split a bech32 string at its last `'1'` separator into the
human-readable part and the data characters after it; `none` when the
string has no `'1'`. (The character right after the longest `'1'`-free
suffix is, when present, necessarily the last `'1'`.) -/
def splitLastSep (s : List Char) : Option (List Char × List Char) :=
  let rev := s.reverse
  let dataRev := rev.takeWhile (fun c => c ≠ '1')
  match rev.drop dataRev.length with
  | _ :: hrpRev => some (hrpRev.reverse, dataRev.reverse)
  | [] => none

/-- `bech32::decode` over character lists: reject mixed case, lower-case,
split at the last `'1'`, map data characters, verify the checksum, regroup
the data part (all but the six checksum groups) into bytes. -/
def bech32DecodeList (s : List Char) : Option (List Char × List Nat) :=
  if s.any Char.isUpper && s.any Char.isLower then none
  else
    match splitLastSep (s.map Char.toLower) with
    | some (hrp, dataPart) =>
      if hrp.isEmpty then none
      else
        match charsToFes dataPart with
        | some fes =>
          if 6 ≤ fes.length && verifyChecksum hrp fes then
            match fesToBytes (fes.take (fes.length - 6)) with
            | some bytes => some (hrp, bytes)
            | none => none
          else none
        | none => none
    | none => none

/-! ## `npub_to_hex` / `hex_to_npub`

From `src/cli/src/acl/access_control.rs`. -/

/-- Decode npub bech32 to hex pubkey (`npub_to_hex` in `access_control.rs`). -/
def npub_to_hex (npub : String) : Option String :=
  match bech32DecodeList npub.data with
  | some (hrp, data) =>
    if hrp = "npub".data then some (String.mk (hexEncodeList data)) else none
  | none => none

/-- Convert hex to npub (`hex_to_npub` in `access_control.rs`): decode the
hex, require exactly 32 bytes, bech32-encode under the `npub` prefix. -/
def hex_to_npub (hex_str : String) : Option String :=
  match hexDecodeList hex_str.data with
  | some bytes =>
    if bytes.length = 32 then some (String.mk (bech32EncodeList "npub".data bytes))
    else none
  | none => none

/-! ## Access control

From `src/cli/src/acl/access_control.rs`. -/

/-- The `owner` block of `access-control.json`. -/
structure OwnerInfo where
  npub : String
  hex : String
  note : String
deriving DecidableEq

/-- The `settings` block of `access-control.json`. -/
structure AclSettings where
  log_rejected_content : Bool
  audit_enabled : Bool
deriving DecidableEq

/-- The parsed `access-control.json` configuration. -/
structure AclConfig where
  version : Nat
  owner : OwnerInfo
  default_policy : String
  allowed_contacts : List String
  allowed_groups : List String
  settings : AclSettings
deriving DecidableEq

/-- `AccessControl::owner_hex`: the effective owner, preferring the
`BURROW_OWNER_HEX` environment variable, then a decodable
`BURROW_OWNER_NPUB`, then the configured owner hex. -/
def owner_hex (envHex envNpub : Option String) (cfg : AclConfig) : String :=
  match envHex with
  | some h => h
  | none =>
    match envNpub with
    | some np =>
      match npub_to_hex np with
      | some h => h
      | none => cfg.owner.hex
    | none => cfg.owner.hex

/-- `AccessControl::is_allowed`: everyone when the effective owner is empty;
otherwise the owner, any allowed contact, or any sender into an allowed
group. -/
def is_allowed (envHex envNpub : Option String) (cfg : AclConfig)
    (sender_hex group_id : String) : Bool :=
  let owner := owner_hex envHex envNpub cfg
  if owner = "" then true
  else if sender_hex = owner then true
  else
    let contact_ok := cfg.allowed_contacts.any (fun c => c == sender_hex)
    let group_ok := cfg.allowed_groups.any (fun g => g == group_id)
    contact_ok || group_ok

/-! ## Audit log

From `src/cli/src/acl/audit.rs`. -/

/-- One line of the audit JSONL file (`AuditEntry` in `audit.rs`). -/
structure AuditEntry where
  timestamp : String
  entry_type : String
  sender_pubkey : Option String
  group_id : Option String
  allowed : Bool
  details : Option String
deriving DecidableEq

/-- `audit::log_message`: the entry recorded for one inbound-message
decision. `now` stands for the formatted current time. -/
def log_message_entry (now sender group_id : String) (allowed : Bool)
    (details : Option String) : AuditEntry :=
  { timestamp := now
    entry_type := "message"
    sender_pubkey := some sender
    group_id := some group_id
    allowed := allowed
    details := details }

/-! ## Daemon notification handling

From `src/cli/src/commands/daemon.rs`, the `MlsGroupMessage` branch of
`handle_notifications`. The MLS decryption itself (`mdk.process_message`) is
performed by the external `mdk` crate; its outcome is the input here. -/

/-- One line of the daemon JSONL log (`DaemonLogEntry` in `daemon.rs`). -/
structure DaemonLogEntry where
  entry_type : String
  timestamp : String
  group_id : Option String
  sender_pubkey : Option String
  content : Option String
  allowed : Option Bool
  error : Option String
deriving DecidableEq

/-- The fields of a decrypted application message the daemon branch uses
(mdk's message record, flattened). -/
structure AppMessage where
  id_hex : String
  pubkey_hex : String
  content : String
  created_at : Nat
  mls_group_id_hex : String
  wrapper_event_id_hex : String
  epoch : Option Nat
  tags : List (List String)
deriving DecidableEq

/-- Outcome of `mdk.process_message` on a kind-445 event, as the daemon
branch distinguishes it: a decrypted application message, any other
successful result (commit/proposal, handled silently), or a failure. -/
inductive ProcessOutcome where
  | applicationMessage (msg : AppMessage)
  | otherSuccess
  | failure (e : String)
deriving DecidableEq

/-- Stored group metadata, the fields the daemon uses
(`StoredGroup` in `file_store.rs`). -/
structure StoredGroupMeta where
  mls_group_id_hex : String
  nostr_group_id_hex : String
deriving DecidableEq

/-- A stored message (`StoredMessage` in `file_store.rs`). -/
structure StoredMessage where
  event_id_hex : String
  author_pubkey_hex : String
  content : String
  created_at : Nat
  mls_group_id_hex : String
  wrapper_event_id_hex : String
  epoch : Nat
  tags : List (List String)
deriving DecidableEq

/-- Everything the `MlsGroupMessage` branch writes, plus whether listening
continues (the Rust handler returns `Ok(false)`, meaning keep listening;
here `keep_listening = true` renders that). -/
structure HandlerEffects where
  log_entries : List DaemonLogEntry
  audit_entries : List AuditEntry
  saved_messages : List StoredMessage
  keep_listening : Bool
deriving DecidableEq

/-- The `MlsGroupMessage` branch of `handle_notifications`. `format_display`
abstracts `crate::media::format_message_with_media` (rendering of media
attachments into display text); `now` stands for the formatted current
time. The branch never propagates an error: every outcome, including
`failure`, yields effects with `keep_listening = true`. -/
def handle_mls_group_message (acl : Option AclConfig) (envHex envNpub : Option String)
    (groups : List StoredGroupMeta) (now : String)
    (format_display : String → List (List String) → String)
    (outcome : ProcessOutcome) : HandlerEffects :=
  match outcome with
  | .applicationMessage msg =>
    let sender_hex := msg.pubkey_hex
    let group_hex := msg.mls_group_id_hex
    let nostr_gid :=
      ((groups.find? (fun g => g.mls_group_id_hex == group_hex)).map
        (fun g => g.nostr_group_id_hex)).getD ""
    let allowed := (acl.map (fun a => is_allowed envHex envNpub a sender_hex nostr_gid)).getD true
    let audit_entries :=
      if (acl.map (fun a => a.settings.audit_enabled)).getD false then
        [log_message_entry now sender_hex nostr_gid allowed none]
      else []
    let display_content :=
      if allowed then some (format_display msg.content msg.tags) else none
    let log_entry : DaemonLogEntry :=
      { entry_type := "message"
        timestamp := now
        group_id := some nostr_gid
        sender_pubkey := some sender_hex
        content := display_content
        allowed := some allowed
        error := none }
    let saved : List StoredMessage :=
      if allowed then
        [{ event_id_hex := msg.id_hex
           author_pubkey_hex := sender_hex
           content := msg.content
           created_at := msg.created_at
           mls_group_id_hex := group_hex
           wrapper_event_id_hex := msg.wrapper_event_id_hex
           epoch := msg.epoch.getD 0
           tags := msg.tags }]
      else []
    { log_entries := [log_entry]
      audit_entries := audit_entries
      saved_messages := saved
      keep_listening := true }
  | .otherSuccess =>
    { log_entries := [], audit_entries := [], saved_messages := [], keep_listening := true }
  | .failure e =>
    { log_entries :=
        [{ entry_type := "decrypt_error"
           timestamp := now
           group_id := none
           sender_pubkey := none
           content := none
           allowed := none
           error := some e }]
      audit_entries := []
      saved_messages := []
      keep_listening := true }

/-! ## Message presentation

From `src/cli/src/storage/file_store.rs`, `FileStore::load_messages`.
Rust's `sort_by_key` is a stable sort; it is rendered here by a stable
insertion sort on the `created_at` key (insertion before the first element
with a key not smaller keeps equal keys in input order, exactly the stable
order `sort_by_key` guarantees). -/

/-- Insert a message into a `created_at`-sorted list, after all elements
with a strictly smaller key and before all elements with an equal or
larger key. -/
def insertByCreatedAt (m : StoredMessage) : List StoredMessage → List StoredMessage
  | [] => [m]
  | x :: xs =>
    if x.created_at < m.created_at then x :: insertByCreatedAt m xs
    else m :: x :: xs

/-- Stable sort of messages by `created_at` (`msgs.sort_by_key(|m| m.created_at)`). -/
def sortByCreatedAt (msgs : List StoredMessage) : List StoredMessage :=
  msgs.foldr insertByCreatedAt []

/-- `FileStore::load_messages`, after the directory read: sort the messages
of the group by `created_at` and keep the last `limit` of them. `msgs` is
the list in the order the directory yields it. -/
def load_messages (msgs : List StoredMessage) (limit : Nat) : List StoredMessage :=
  let sorted := sortByCreatedAt msgs
  if limit < sorted.length then sorted.drop (sorted.length - limit) else sorted

/-! ## Key-package selection

From `src/app/rust/src/api/invite.rs`, `fetch_key_package`. The relay fetch
itself is external; its result — the set of kind-443 events of the queried
pubkey, in iteration order — is the input here. -/

/-- A fetched key-package event: its id and `created_at` timestamp. -/
structure KeyPackageEvent where
  id_hex : String
  created_at : Nat
deriving DecidableEq

/-- The error `fetch_key_package` returns when no event was fetched. -/
inductive FetchError where
  | noKeyPackage
deriving DecidableEq

/-- One step of Rust's `Iterator::max_by_key` on `created_at`: a later
element replaces the current maximum when its key is not smaller (so among
equal keys the last wins, as `max_by_key` documents). -/
def maxStep (acc : Option KeyPackageEvent) (e : KeyPackageEvent) : Option KeyPackageEvent :=
  match acc with
  | none => some e
  | some m => if m.created_at ≤ e.created_at then some e else some m

/-- Rust's `Iterator::max_by_key` on `created_at`: `none` on an empty
iterator, otherwise the last element whose key is maximal. -/
def max_by_created_at (events : List KeyPackageEvent) : Option KeyPackageEvent :=
  events.foldl maxStep none

/-- `fetch_key_package`, after the relay fetch: select the newest event by
`created_at`, or fail with the no-key-package error. -/
def fetch_key_package (events : List KeyPackageEvent) : Except FetchError KeyPackageEvent :=
  match max_by_created_at events with
  | some e => .ok e
  | none => .error .noKeyPackage

/-! ## String helpers over `List Char`

Rust `str` operations used by the media and signaling code, rendered over
character lists (Lean's built-in `String.trim`/`toLower`/`splitOn` are
opaque to the kernel). -/

/-- `str::splitn(2, ' ')` yielding two parts, or `none` when the string
holds no space (one part). -/
def splitn2Space (s : List Char) : Option (List Char × List Char) :=
  let key := s.takeWhile (fun c => c ≠ ' ')
  match s.drop key.length with
  | ' ' :: tail => some (key, tail)
  | _ => none

/-- `str::trim` (ASCII whitespace suffices for the inputs at hand). -/
def trimChars (s : List Char) : List Char :=
  ((s.dropWhile Char.isWhitespace).reverse.dropWhile Char.isWhitespace).reverse

/-- `str::to_lowercase` (ASCII). -/
def lowerChars (s : List Char) : List Char := s.map Char.toLower

/-- `str::split(sep)`: every part, empty parts included. -/
def splitOnChar (sep : Char) : List Char → List (List Char)
  | [] => [[]]
  | c :: rest =>
    let r := splitOnChar sep rest
    if c = sep then [] :: r
    else
      match r with
      | h :: t => (c :: h) :: t
      | [] => [[c]]

/-- `str::parse::<uN>` for a `2 ^ w` bound: an optional leading plus sign,
then one or more decimal digits, value within bounds. -/
def parseUInt (w : Nat) (s : List Char) : Option Nat :=
  let digits := match s with
    | '+' :: r => r
    | r => r
  if digits ≠ [] ∧ digits.all (fun c => decide ('0' ≤ c ∧ c ≤ '9')) then
    let v := digits.foldl (fun a c => 10 * a + (c.toNat - 48)) 0
    if v < 2 ^ w then some v else none
  else none

/-- Decimal rendering of a number (`format!("{}")`), fuel-driven so the
kernel can evaluate it. -/
def natToCharsAux : Nat → Nat → List Char → List Char
  | 0, _, acc => acc
  | fuel + 1, n, acc =>
    let acc' := Char.ofNat (48 + n % 10) :: acc
    if n < 10 then acc' else natToCharsAux fuel (n / 10) acc'

/-- Decimal rendering of a number as a string. -/
def natToString (n : Nat) : String := String.mk (natToCharsAux (n + 1) n [])

/-! ## Media pipeline

From `src/app/rust/src/api/media.rs`: `parse_imeta_tag`,
`build_media_reference`, `build_imeta_tag`, and the integrity check of
`download_media`. -/

/-- Parsed imeta fields for a received media reference
(`MediaReferenceInfo` in `media.rs`). -/
structure MediaReferenceInfo where
  url : String
  original_hash_hex : String
  mime_type : String
  filename : String
  dimensions : Option String
  scheme_version : String
  nonce_hex : String
deriving DecidableEq

/-- `mdk_core::encrypted_media::MediaReference` as `build_media_reference`
fills it: the hash a 32-byte array, the nonce a 12-byte array. -/
structure MediaReference where
  url : String
  original_hash : List Nat
  mime_type : String
  filename : String
  dimensions : Option (Nat × Nat)
  scheme_version : String
  nonce : List Nat
deriving DecidableEq

/-- The mutable locals of `parse_imeta_tag`'s loop. -/
structure ImetaFields where
  url : Option String
  mime_type : Option String
  filename : Option String
  original_hash_hex : Option String
  nonce_hex : Option String
  dimensions : Option String
  version : Option String
deriving DecidableEq

/-- The loop of `parse_imeta_tag`: each item is split at the first space;
one-part items are skipped; `x` and `n` values are validated as they are
seen (32-byte and 12-byte hex); unknown keys are ignored. -/
def parse_imeta_loop : List String → ImetaFields → Except String ImetaFields
  | [], st => .ok st
  | item :: rest, st =>
    match splitn2Space item.data with
    | none => parse_imeta_loop rest st
    | some (k, v) =>
      if k = "url".data then
        parse_imeta_loop rest { st with url := some (String.mk v) }
      else if k = "m".data then
        parse_imeta_loop rest { st with mime_type := some (String.mk (lowerChars (trimChars v))) }
      else if k = "filename".data then
        parse_imeta_loop rest { st with filename := some (String.mk v) }
      else if k = "x".data then
        match hexDecodeList v with
        | some b =>
          if b.length = 32 then
            parse_imeta_loop rest { st with original_hash_hex := some (String.mk v) }
          else .error "Invalid x (hash) field in imeta tag"
        | none => .error "Invalid x (hash) field in imeta tag"
      else if k = "n".data then
        match hexDecodeList v with
        | some b =>
          if b.length = 12 then
            parse_imeta_loop rest { st with nonce_hex := some (String.mk v) }
          else .error "Invalid n (nonce) field in imeta tag"
        | none => .error "Invalid n (nonce) field in imeta tag"
      else if k = "dim".data then
        parse_imeta_loop rest { st with dimensions := some (String.mk v) }
      else if k = "v".data then
        parse_imeta_loop rest { st with version := some (String.mk v) }
      else
        parse_imeta_loop rest st

/-- `parse_imeta_tag`: run the loop, then require a version equal to
`mip04-v2` and the presence of `url`, `x`, `m`, `filename`, `n`. -/
def parse_imeta_tag (tag_values : List String) : Except String MediaReferenceInfo :=
  match parse_imeta_loop tag_values ⟨none, none, none, none, none, none, none⟩ with
  | .error e => .error e
  | .ok st =>
    match st.version with
    | none => .error "Missing v (version) in imeta tag"
    | some ver =>
      if ver ≠ "mip04-v2" then .error "Unsupported MIP-04 version"
      else
        match st.url with
        | none => .error "Missing url in imeta tag"
        | some url =>
          match st.original_hash_hex with
          | none => .error "Missing x (hash) in imeta tag"
          | some x =>
            match st.mime_type with
            | none => .error "Missing m (mime type) in imeta tag"
            | some m =>
              match st.filename with
              | none => .error "Missing filename in imeta tag"
              | some f =>
                match st.nonce_hex with
                | none => .error "Missing n (nonce) in imeta tag"
                | some n =>
                  .ok { url := url
                        original_hash_hex := x
                        mime_type := m
                        filename := f
                        dimensions := st.dimensions
                        scheme_version := ver
                        nonce_hex := n }

/-- `build_imeta_tag`: the flat value array of an outgoing imeta tag.
The version value is the literal `v mip04-v2`. -/
def build_imeta_tag (url mime_type filename original_hash_hex nonce_hex : String)
    (dimensions blurhash : Option String) : List String :=
  [String.mk ("url ".data ++ url.data),
   String.mk ("m ".data ++ mime_type.data),
   String.mk ("filename ".data ++ filename.data)]
  ++ (match dimensions with
      | some d => [String.mk ("dim ".data ++ d.data)]
      | none => [])
  ++ (match blurhash with
      | some b => [String.mk ("blurhash ".data ++ b.data)]
      | none => [])
  ++ [String.mk ("x ".data ++ original_hash_hex.data),
      String.mk ("n ".data ++ nonce_hex.data),
      "v mip04-v2"]

/-- `build_media_reference`: decode and length-check the hash (32 bytes) and
the nonce (12 bytes), parse optional `WxH` dimensions, and fill the
reference. The scheme version is copied through as given. -/
def build_media_reference (url mime_type filename original_hash_hex nonce_hex
    scheme_version : String) (dimensions : Option String) :
    Except String MediaReference :=
  match hexDecodeList original_hash_hex.data with
  | none => .error "Invalid hash hex"
  | some hash_bytes =>
    if hash_bytes.length ≠ 32 then .error "Hash must be 32 bytes"
    else
      match hexDecodeList nonce_hex.data with
      | none => .error "Invalid nonce hex"
      | some nonce_bytes =>
        if nonce_bytes.length ≠ 12 then .error "Nonce must be 12 bytes"
        else
          let dims := dimensions.bind (fun d =>
            let parts := splitOnChar 'x' d.data
            if parts.length = 2 then
              match parseUInt 32 (parts.getD 0 []), parseUInt 32 (parts.getD 1 []) with
              | some w, some h => some (w, h)
              | _, _ => none
            else none)
          .ok { url := url
                original_hash := hash_bytes
                mime_type := mime_type
                filename := filename
                dimensions := dims
                scheme_version := scheme_version
                nonce := nonce_bytes }

/-- `decrypt_file`: build the media reference from the imeta fields, then
hand the ciphertext and reference to mdk's `decrypt_from_download`
(external; passed in as `decrypt`). -/
def decrypt_file (decrypt : List Nat → MediaReference → Except String (List Nat))
    (encrypted_data : List Nat)
    (url mime_type filename original_hash_hex nonce_hex scheme_version : String)
    (dimensions : Option String) : Except String (List Nat) :=
  match build_media_reference url mime_type filename original_hash_hex nonce_hex
      scheme_version dimensions with
  | .error e => .error e
  | .ok r => decrypt encrypted_data r

/-! ## SHA-256

Modelled from the `sha2` crate (an external dependency of the source),
i.e. FIPS 180-4 SHA-256, over byte lists, with 32-bit words as `Nat`
reduced modulo `2 ^ 32`. -/

/-- 32-bit rotate right. -/
def rotr32 (n x : Nat) : Nat := ((x >>> n) ||| (x <<< (32 - n))) &&& 0xffffffff

/-- The 64 SHA-256 round constants. -/
def SHA256_K : List Nat :=
  [1116352408, 1899447441, 3049323471, 3921009573,
   961987163, 1508970993, 2453635748, 2870763221,
   3624381080, 310598401, 607225278, 1426881987,
   1925078388, 2162078206, 2614888103, 3248222580,
   3835390401, 4022224774, 264347078, 604807628,
   770255983, 1249150122, 1555081692, 1996064986,
   2554220882, 2821834349, 2952996808, 3210313671,
   3336571891, 3584528711, 113926993, 338241895,
   666307205, 773529912, 1294757372, 1396182291,
   1695183700, 1986661051, 2177026350, 2456956037,
   2730485921, 2820302411, 3259730800, 3345764771,
   3516065817, 3600352804, 4094571909, 275423344,
   430227734, 506948616, 659060556, 883997877,
   958139571, 1322822218, 1537002063, 1747873779,
   1955562222, 2024104815, 2227730452, 2361852424,
   2428436474, 2756734187, 3204031479, 3329325298]

/-- Message padding: a `0x80` byte, zeros to 56 mod 64, the bit length as
eight big-endian bytes. -/
def sha256Pad (msg : List Nat) : List Nat :=
  let L := msg.length
  let zeros := (64 - (L + 9) % 64) % 64
  msg ++ 0x80 :: List.replicate zeros 0
    ++ [(8 * L >>> 56) &&& 255, (8 * L >>> 48) &&& 255, (8 * L >>> 40) &&& 255,
        (8 * L >>> 32) &&& 255, (8 * L >>> 24) &&& 255, (8 * L >>> 16) &&& 255,
        (8 * L >>> 8) &&& 255, (8 * L) &&& 255]

/-- Split a byte list into 64-byte blocks (fuel-driven). -/
def chunks64 : Nat → List Nat → List (List Nat)
  | 0, _ => []
  | _ + 1, [] => []
  | fuel + 1, l => l.take 64 :: chunks64 fuel (l.drop 64)

/-- Four big-endian bytes to a 32-bit word, per block (fuel-driven). -/
def wordsOfBytes : Nat → List Nat → List Nat
  | 0, _ => []
  | _ + 1, [] => []
  | fuel + 1, l =>
    (((l.getD 0 0) <<< 24) ||| ((l.getD 1 0) <<< 16) ||| ((l.getD 2 0) <<< 8) ||| l.getD 3 0)
      :: wordsOfBytes fuel (l.drop 4)

/-- σ0 of the message schedule. -/
def sSigma0 (x : Nat) : Nat := rotr32 7 x ^^^ rotr32 18 x ^^^ (x >>> 3)

/-- σ1 of the message schedule. -/
def sSigma1 (x : Nat) : Nat := rotr32 17 x ^^^ rotr32 19 x ^^^ (x >>> 10)

/-- Σ0 of the compression function. -/
def bSigma0 (x : Nat) : Nat := rotr32 2 x ^^^ rotr32 13 x ^^^ rotr32 22 x

/-- Σ1 of the compression function. -/
def bSigma1 (x : Nat) : Nat := rotr32 6 x ^^^ rotr32 11 x ^^^ rotr32 25 x

/-- Extend the 16-word schedule by `n` further words. -/
def extendSchedule : Nat → List Nat → List Nat
  | 0, w => w
  | n + 1, w =>
    let t := (sSigma1 (w.getD (w.length - 2) 0) + w.getD (w.length - 7) 0
      + sSigma0 (w.getD (w.length - 15) 0) + w.getD (w.length - 16) 0) % 0x100000000
    extendSchedule n (w ++ [t])

/-- The eight working variables of the compression loop. -/
structure Sha256State where
  a : Nat
  b : Nat
  c : Nat
  d : Nat
  e : Nat
  f : Nat
  g : Nat
  h : Nat
deriving DecidableEq

/-- One round of the compression loop. -/
def sha256Round (st : Sha256State) (kw : Nat × Nat) : Sha256State :=
  let ch := (st.e &&& st.f) ^^^ ((st.e ^^^ 0xffffffff) &&& st.g)
  let maj := (st.a &&& st.b) ^^^ (st.a &&& st.c) ^^^ (st.b &&& st.c)
  let t1 := (st.h + bSigma1 st.e + ch + kw.1 + kw.2) % 0x100000000
  let t2 := (bSigma0 st.a + maj) % 0x100000000
  { a := (t1 + t2) % 0x100000000
    b := st.a
    c := st.b
    d := st.c
    e := (st.d + t1) % 0x100000000
    f := st.e
    g := st.f
    h := st.g }

/-- Process one 64-byte block into the running hash (eight words). -/
def sha256Block (hs : List Nat) (block : List Nat) : List Nat :=
  let w := extendSchedule 48 (wordsOfBytes 64 block)
  let st0 : Sha256State :=
    { a := hs.getD 0 0, b := hs.getD 1 0, c := hs.getD 2 0, d := hs.getD 3 0
      e := hs.getD 4 0, f := hs.getD 5 0, g := hs.getD 6 0, h := hs.getD 7 0 }
  let st := (SHA256_K.zip w).foldl sha256Round st0
  [(hs.getD 0 0 + st.a) % 0x100000000, (hs.getD 1 0 + st.b) % 0x100000000,
   (hs.getD 2 0 + st.c) % 0x100000000, (hs.getD 3 0 + st.d) % 0x100000000,
   (hs.getD 4 0 + st.e) % 0x100000000, (hs.getD 5 0 + st.f) % 0x100000000,
   (hs.getD 6 0 + st.g) % 0x100000000, (hs.getD 7 0 + st.h) % 0x100000000]

/-- SHA-256 digest of a byte list, as 32 bytes. -/
def sha256 (msg : List Nat) : List Nat :=
  let padded := sha256Pad msg
  let hs := (chunks64 padded.length padded).foldl sha256Block
    [1779033703, 3144134277, 1013904242, 2773480762,
     1359893119, 2600822924, 528734635, 1541459225]
  hs.flatMap (fun wrd => [(wrd >>> 24) &&& 255, (wrd >>> 16) &&& 255, (wrd >>> 8) &&& 255, wrd &&& 255])

/-- `hex::encode(Sha256::digest(bytes))`, the form `download_media` compares. -/
def sha256Hex (msg : List Nat) : String := String.mk (hexEncodeList (sha256 msg))

/-! ## Media download

From `src/app/rust/src/api/media.rs`, `download_media`, after the HTTP GET:
the body-hash integrity check against the URL's trailing path segment, then
decryption via `decrypt_file`. -/

/-- `download_media` after the fetch: with a successful HTTP status, hash
the body, compare against the URL's last path segment when that segment is
64 hex characters, and only then decrypt. `decrypt` abstracts mdk's
`decrypt_from_download`. -/
def download_media (decrypt : List Nat → MediaReference → Except String (List Nat))
    (status_ok : Bool) (url : String) (body : List Nat)
    (mime_type filename original_hash_hex nonce_hex scheme_version : String)
    (dimensions : Option String) : Except String (List Nat) :=
  if !status_ok then .error "Download returned HTTP error"
  else
    let actual_hash := sha256Hex body
    match (splitOnChar '/' url.data).getLast? with
    | some url_hash =>
      if url_hash.length = 64 ∧ (hexDecodeList url_hash).isSome
          ∧ String.mk url_hash ≠ actual_hash then
        .error "Download integrity check failed"
      else
        decrypt_file decrypt body url mime_type filename original_hash_hex
          nonce_hex scheme_version dimensions
    | none =>
      decrypt_file decrypt body url mime_type filename original_hash_hex
        nonce_hex scheme_version dimensions

/-! ## Call signaling

From `src/app/rust/src/api/call_signaling.rs`: tag construction for 1:1
gift-wrapped signaling, the group-call signaling rumor, and the
expiration filter of `listen_for_call_events`. Tags are rendered as they
reach the wire: lists of strings, the tag kind first. -/

/-- Whether a string is a valid hex public key (`PublicKey::from_hex`
succeeds exactly on 64 hex characters, 32 bytes). -/
def validPubkeyHex (s : String) : Bool :=
  match hexDecodeList s.data with
  | some b => b.length == 32
  | none => false

/-- An unsigned inner event (rumor) as the signaling builders produce it. -/
structure Rumor where
  kind : Nat
  content : String
  tags : List (List String)
  created_at : Nat
  pubkey : String
deriving DecidableEq

/-- `signaling_tags`: recipient `p` tag, `call-id`, `expiration`, and an
optional `call-type`. -/
def signaling_tags (recipient_pubkey_hex call_id : String) (call_type : Option String)
    (expiration_secs : Nat) : Except String (List (List String)) :=
  if validPubkeyHex recipient_pubkey_hex then
    .ok ([["p", recipient_pubkey_hex],
          ["call-id", call_id],
          ["expiration", natToString expiration_secs]]
      ++ (match call_type with
          | some ct => [["call-type", ct]]
          | none => []))
  else .error "invalid recipient pubkey"

/-- The rumor built by `build_gift_wrapped_signaling` for a 1:1 call (the
NIP-59 wrapping around it is external): the expiration is the current time
plus 60 seconds. `now` is the Unix time at build. -/
def build_gift_wrapped_signaling (kind_num : Nat) (content recipient_pubkey_hex
    call_id : String) (call_type : Option String) (now : Nat)
    (author_pubkey : String) : Except String Rumor :=
  match signaling_tags recipient_pubkey_hex call_id call_type (now + 60) with
  | .error e => .error e
  | .ok tags =>
    .ok { kind := kind_num
          content := content
          tags := tags
          created_at := now
          pubkey := author_pubkey }

/-- The rumor built by `build_group_call_signaling` for a group call: a
`call-id` tag and an optional `call-type` tag. -/
def build_group_call_signaling (kind_num : Nat) (content call_id : String)
    (call_type : Option String) (now : Nat) (author_pubkey : String) : Rumor :=
  { kind := kind_num
    content := content
    tags := [["call-id", call_id]]
      ++ (match call_type with
          | some ct => [["call-type", ct]]
          | none => [])
    created_at := now
    pubkey := author_pubkey }

/-- The first tag of the given kind, its second entry
(`tags.iter().find(..).and_then(|t| t.as_slice().get(1))`). -/
def findTagValue (tags : List (List String)) (key : String) : Option String :=
  (tags.find? (fun t => t.head? == some key)).bind (fun t => t.get? 1)

/-- The expiration filter of `listen_for_call_events` on an unwrapped
rumor: deliver exactly when the kind is a signaling kind (25050–25054) and
no parsed expiration tag lies strictly in the past. -/
def signaling_delivered (now : Nat) (rumor : Rumor) : Bool :=
  if 25050 ≤ rumor.kind ∧ rumor.kind ≤ 25054 then
    match (findTagValue rumor.tags "expiration").bind (fun s => parseUInt 64 s.data) with
    | some exp => !decide (exp < now)
    | none => true
  else false

/-! ## Group engine epochs

Modelled from the spec: the epoch-advancing state machine itself
(`create_group`, `add_members`, `remove_members`, `update_group_data`,
`merge_pending_commit`) lives inside the external `mdk` crate; the code
under `src/` (in `src/mls-engine/src/group.rs` and
`src/app/rust/src/api/group.rs`) only forwards to it. Per the spec:
proposal-creating operations park a pending commit and leave `epoch`
untouched; a merge advances the epoch, rotates the derived secrets and
clears the pending commit; at most one pending commit exists per group. -/

/-- A group-engine mutation, as the spec's contract table lists them. -/
inductive GroupOp where
  | addMembers (key_packages : List Nat)
  | removeMembers (members : List Nat)
  | updateMetadata
  | mergePending
deriving DecidableEq

/-- The group-engine error kinds the epoch contract mentions. -/
inductive GroupEngineError where
  | pendingCommitExists
  | noPendingCommit
deriving DecidableEq

/-- Modelled from the spec: a group's engine-visible state — its epoch, its
membership, and the at-most-one pending commit (carrying the membership the
commit would install). -/
structure EngineGroup where
  epoch : Nat
  members : List Nat
  pending : Option (List Nat)
deriving DecidableEq

/-- Modelled from the spec: one successful or failed group-engine
operation. Proposal-creating operations require no pending commit and stage
one; `mergePending` requires one, advances the epoch by one and clears it. -/
def applyGroupOp (g : EngineGroup) : GroupOp → Except GroupEngineError EngineGroup
  | .addMembers kps =>
    match g.pending with
    | some _ => .error .pendingCommitExists
    | none => .ok { g with pending := some (g.members ++ kps) }
  | .removeMembers ms =>
    match g.pending with
    | some _ => .error .pendingCommitExists
    | none => .ok { g with pending := some (g.members.filter (fun m => !ms.contains m)) }
  | .updateMetadata =>
    match g.pending with
    | some _ => .error .pendingCommitExists
    | none => .ok { g with pending := some g.members }
  | .mergePending =>
    match g.pending with
    | none => .error .noPendingCommit
    | some m => .ok { epoch := g.epoch + 1, members := m, pending := none }

/-- A sequence of operations; a failed operation leaves the state as it
was. -/
def runGroupOps (g : EngineGroup) (ops : List GroupOp) : EngineGroup :=
  ops.foldl
    (fun st op =>
      match applyGroupOp st op with
      | .ok st2 => st2
      | .error _ => st)
    g

/-! ## Orders used to state the claims -/

/-- Lexicographic comparison of character lists by codepoint; the ascending
order on (equal-length) hex event ids. -/
def charListLe : List Char → List Char → Bool
  | [], _ => true
  | x :: xs, y :: ys =>
    if x.toNat < y.toNat then true
    else if y.toNat < x.toNat then false
    else charListLe xs ys
  | _ :: _, [] => false

/-- The presented message order the specification asserts: ascending
timestamps, ties in ascending event-id order. -/
def SpecMessageOrder (l : List StoredMessage) : Prop :=
  List.Pairwise
    (fun a b => a.created_at < b.created_at ∨
      (a.created_at = b.created_at ∧ charListLe a.event_id_hex.data b.event_id_hex.data = true))
    l

/-! # Theorems -/

/-- C1: `is_allowed(sender, group-id)` returns true exactly when the
effective owner is empty, the sender is the owner, the sender is an allowed
contact, or the group is an allowed group. -/
theorem is_allowed_iff (envHex envNpub : Option String) (cfg : AclConfig)
    (sender group_id : String) :
    is_allowed envHex envNpub cfg sender group_id = true ↔
      (owner_hex envHex envNpub cfg = "" ∨ sender = owner_hex envHex envNpub cfg
        ∨ sender ∈ cfg.allowed_contacts ∨ group_id ∈ cfg.allowed_groups) := by
  unfold is_allowed
  by_cases h1 : owner_hex envHex envNpub cfg = ""
  · simp [h1]
  · by_cases h2 : sender = owner_hex envHex envNpub cfg
    · simp [h1, h2]
    · simp only [h1, h2, if_false, Bool.or_eq_true, List.any_eq_true, beq_iff_eq]
      constructor
      · rintro (⟨c, hc, rfl⟩ | ⟨g, hg, rfl⟩)
        · exact Or.inr (Or.inr (Or.inl hc))
        · exact Or.inr (Or.inr (Or.inr hg))
      · rintro (h | h | h | h)
        · exact h.elim
        · exact h.elim
        · exact Or.inl ⟨sender, h, rfl⟩
        · exact Or.inr ⟨group_id, h, rfl⟩

/-- C2: in the (spec-modelled) group engine, every successful operation
keeps the epoch non-decreasing, a successful merge strictly increases it,
and along any sequence of operations the epoch never decreases. -/
theorem group_epoch_monotonic :
    (∀ (g : EngineGroup) (op : GroupOp) (g' : EngineGroup),
        applyGroupOp g op = .ok g' →
          g.epoch ≤ g'.epoch ∧ (op = .mergePending → g.epoch < g'.epoch)) ∧
      ∀ (g : EngineGroup) (ops : List GroupOp), g.epoch ≤ (runGroupOps g ops).epoch := by
  have hstep : ∀ (g : EngineGroup) (op : GroupOp) (g' : EngineGroup),
      applyGroupOp g op = .ok g' →
        g.epoch ≤ g'.epoch ∧ (op = .mergePending → g.epoch < g'.epoch) := by
    intro g op g' h
    cases op <;> cases hp : g.pending <;> simp [applyGroupOp, hp] at h <;>
      (try subst h) <;> simp
  refine ⟨hstep, ?_⟩
  intro g ops
  induction ops generalizing g with
  | nil => exact Nat.le_refl _
  | cons op rest ih =>
    cases hap : applyGroupOp g op with
    | ok s =>
      have hrun : runGroupOps g (op :: rest) = runGroupOps s rest := by
        simp [runGroupOps, hap]
      rw [hrun]
      exact le_trans (hstep g op s hap).1 (ih s)
    | error err =>
      have hrun : runGroupOps g (op :: rest) = runGroupOps g rest := by
        simp [runGroupOps, hap]
      rw [hrun]
      exact ih g

/-- C2 witness: merging the pending commit of a concrete group at epoch 5
yields epoch 6. -/
theorem group_epoch_monotonic_witness :
    (5 : Nat) ≤ 6 ∧ (GroupOp.mergePending = GroupOp.mergePending → (5 : Nat) < 6) :=
  group_epoch_monotonic.1 ⟨5, [1], some [1, 2]⟩ .mergePending ⟨6, [1, 2], none⟩ rfl

/-- C8: on a failed `process_message`, the daemon's handler records exactly
one `decrypt_error` log line and returns normally with the keep-listening
result; nothing is stored, audited or propagated, for every configuration. -/
theorem daemon_decrypt_error_continues (acl : Option AclConfig)
    (envHex envNpub : Option String) (groups : List StoredGroupMeta) (now : String)
    (format_display : String → List (List String) → String) (e : String) :
    handle_mls_group_message acl envHex envNpub groups now format_display (.failure e) =
      ⟨[⟨"decrypt_error", now, none, none, none, none, some e⟩], [], [], true⟩ := rfl

/-- The maximum-tracking fold always yields an element of its input (or the
seed), with a key at least the seed's and every input element's. -/
theorem maxStep_foldl_spec (events : List KeyPackageEvent) (m : KeyPackageEvent) :
    ∃ r, events.foldl maxStep (some m) = some r
      ∧ (r = m ∨ r ∈ events) ∧ m.created_at ≤ r.created_at
      ∧ ∀ e' ∈ events, e'.created_at ≤ r.created_at := by
  induction events generalizing m with
  | nil => exact ⟨m, rfl, Or.inl rfl, Nat.le_refl _, by simp⟩
  | cons e rest ih =>
    by_cases h : m.created_at ≤ e.created_at
    · obtain ⟨r, h1, h2, h3, h4⟩ := ih e
      refine ⟨r, ?_, ?_, Nat.le_trans h h3, ?_⟩
      · simpa [maxStep, h] using h1
      · rcases h2 with rfl | hr
        · exact Or.inr (List.mem_cons_self _ _)
        · exact Or.inr (List.mem_cons_of_mem _ hr)
      · intro e' he'
        rcases List.mem_cons.mp he' with rfl | he'
        · exact h3
        · exact h4 e' he'
    · obtain ⟨r, h1, h2, h3, h4⟩ := ih m
      refine ⟨r, ?_, ?_, h3, ?_⟩
      · simpa [maxStep, h] using h1
      · rcases h2 with rfl | hr
        · exact Or.inl rfl
        · exact Or.inr (List.mem_cons_of_mem _ hr)
      · intro e' he'
        rcases List.mem_cons.mp he' with rfl | he'
        · exact Nat.le_trans (Nat.le_of_lt (Nat.lt_of_not_le h)) h3
        · exact h4 e' he'

/-- C4 (amended): `fetch_key_package` fails with the no-key-package error
exactly on an empty fetch result, and otherwise returns a fetched event
whose timestamp is maximal (not below any other fetched event's; on ties
the last such event in iteration order). -/
theorem fetch_key_package_newest (events : List KeyPackageEvent) :
    (events = [] → fetch_key_package events = .error .noKeyPackage) ∧
      (events ≠ [] → ∃ e, fetch_key_package events = .ok e ∧ e ∈ events ∧
        ∀ e' ∈ events, e'.created_at ≤ e.created_at) := by
  constructor
  · rintro rfl
    rfl
  · intro hne
    cases events with
    | nil => exact absurd rfl hne
    | cons e rest =>
      obtain ⟨r, h1, h2, h3, h4⟩ := maxStep_foldl_spec rest e
      have hmax : max_by_created_at (e :: rest) = some r := by
        simpa [max_by_created_at, maxStep] using h1
      refine ⟨r, ?_, ?_, ?_⟩
      · simp [fetch_key_package, hmax]
      · rcases h2 with rfl | hr
        · exact List.mem_cons_self _ _
        · exact List.mem_cons_of_mem _ hr
      · intro e' he'
        rcases List.mem_cons.mp he' with rfl | he'
        · exact h3
        · exact h4 e' he'

/-- C4 witness: on a concrete two-event fetch the newest event (timestamp 9)
is selected. -/
theorem fetch_key_package_newest_witness :
    ([(⟨"aa", 9⟩ : KeyPackageEvent), ⟨"bb", 5⟩] ≠ []) ∧
      ∃ e, fetch_key_package [(⟨"aa", 9⟩ : KeyPackageEvent), ⟨"bb", 5⟩] = .ok e
        ∧ e ∈ [(⟨"aa", 9⟩ : KeyPackageEvent), ⟨"bb", 5⟩]
        ∧ ∀ e' ∈ [(⟨"aa", 9⟩ : KeyPackageEvent), ⟨"bb", 5⟩], e'.created_at ≤ e.created_at :=
  ⟨by decide, (fetch_key_package_newest [⟨"aa", 9⟩, ⟨"bb", 5⟩]).2 (by decide)⟩

/-- C4 counterexample: with two fetched events sharing the maximal
timestamp, the returned event's timestamp is maximal but not strictly
maximal — another fetched event has the same timestamp, so the claim's
strict form fails. -/
theorem fetch_key_package_tie_counterexample :
    fetch_key_package [⟨"aa", 5⟩, ⟨"bb", 5⟩] = .ok ⟨"bb", 5⟩ ∧
      ¬ (∀ e' ∈ [(⟨"aa", 5⟩ : KeyPackageEvent), ⟨"bb", 5⟩],
          e' ≠ ⟨"bb", 5⟩ → e'.created_at < 5) := by
  decide

/-- C6: a rejected inbound message (sender `cc`, owner `aa`, no allowed
contacts or groups) with `logRejectedContent = true` still yields an audit
entry with no content (`details = none`) and a daemon log line with
`content = none`: the flag is never consulted when the entries are written,
so content is omitted even when the claim says it must be included. -/
theorem rejected_content_omitted_despite_flag :
    handle_mls_group_message
        (some ⟨1, ⟨"", "aa", ""⟩, "ignore", [], [], ⟨true, true⟩⟩) none none
        [⟨"g1", "ng1"⟩] "t0" (fun c _ => c)
        (.applicationMessage ⟨"ev1", "cc", "secret", 100, "g1", "w1", some 3, []⟩)
      = ⟨[⟨"message", "t0", some "ng1", some "cc", none, some false, none⟩],
         [⟨"t0", "message", some "cc", some "ng1", false, none⟩], [], true⟩ ∧
    (⟨true, true⟩ : AclSettings).log_rejected_content = true := by
  decide

/-- C7 (amended): a 1:1 signaling rumor carries an expiration tag of its
creation time plus 60 seconds; a group-call signaling rumor carries no
expiration tag at all; and a received signaling event whose parsed
expiration lies strictly in the past is never delivered. -/
theorem signaling_expiry_spec :
    (∀ (kind : Nat) (content recipient call_id : String) (ct : Option String)
        (now : Nat) (author : String) (rumor : Rumor),
        build_gift_wrapped_signaling kind content recipient call_id ct now author = .ok rumor →
          rumor.created_at = now ∧ ["expiration", natToString (now + 60)] ∈ rumor.tags) ∧
    (∀ (kind : Nat) (content call_id : String) (ct : Option String) (now : Nat)
        (author : String),
        findTagValue (build_group_call_signaling kind content call_id ct now author).tags
          "expiration" = none) ∧
    (∀ (now : Nat) (rumor : Rumor) (e : Nat),
        (findTagValue rumor.tags "expiration").bind (fun s => parseUInt 64 s.data) = some e →
        e < now → signaling_delivered now rumor = false) := by
  refine ⟨?_, ?_, ?_⟩
  · intro kind content recipient call_id ct now author rumor h
    unfold build_gift_wrapped_signaling signaling_tags at h
    by_cases hv : validPubkeyHex recipient = true
    · simp only [hv, if_true] at h
      cases h
      cases ct <;> simp
    · simp [hv] at h
  · intro kind content call_id ct now author
    cases ct <;> rfl
  · intro now rumor e he hlt
    unfold signaling_delivered
    by_cases hk : 25050 ≤ rumor.kind ∧ rumor.kind ≤ 25054
    · simp [hk, he, hlt]
    · simp [hk]

/-- C7 witness: a concrete 1:1 offer rumor built at time 1000 carries
expiration 1060, and a concrete rumor expired at 1500 is not delivered at
time 2000. -/
theorem signaling_expiry_spec_witness :
    ((⟨25050, "{}",
        [["p", "aaaaaaaaaaaaaaaaaaaaaaaaaaaaaaaaaaaaaaaaaaaaaaaaaaaaaaaaaaaaaaaa"],
         ["call-id", "c1"], ["expiration", natToString (1000 + 60)]],
        1000, "bb"⟩ : Rumor).created_at = 1000 ∧
      ["expiration", natToString (1000 + 60)] ∈
        [["p", "aaaaaaaaaaaaaaaaaaaaaaaaaaaaaaaaaaaaaaaaaaaaaaaaaaaaaaaaaaaaaaaa"],
         ["call-id", "c1"], ["expiration", natToString (1000 + 60)]]) ∧
    signaling_delivered 2000 ⟨25050, "x", [["expiration", "1500"]], 1400, "bb"⟩ = false :=
  ⟨signaling_expiry_spec.1 25050 "{}"
      "aaaaaaaaaaaaaaaaaaaaaaaaaaaaaaaaaaaaaaaaaaaaaaaaaaaaaaaaaaaaaaaa" "c1" none
      1000 "bb" _ (by decide),
    signaling_expiry_spec.2.2 2000 ⟨25050, "x", [["expiration", "1500"]], 1400, "bb"⟩
      1500 (by decide) (by decide)⟩

/-- C7 counterexample: the group-call variant of a concrete offer envelope
carries no expiration tag at all, so it does not carry an expiration 60
seconds after creation. -/
theorem group_signaling_no_expiry_counterexample :
    (build_group_call_signaling 25050 "{}" "c1" none 1000 "bb").tags = [["call-id", "c1"]] ∧
      ∀ t ∈ (build_group_call_signaling 25050 "{}" "c1" none 1000 "bb").tags,
        t ≠ ["expiration", natToString (1000 + 60)] := by
  decide

/-- Inserting into the timestamp-sorted list permutes consing. -/
theorem insertByCreatedAt_perm (m : StoredMessage) (l : List StoredMessage) :
    (insertByCreatedAt m l).Perm (m :: l) := by
  induction l with
  | nil => exact List.Perm.refl _
  | cons x xs ih =>
    unfold insertByCreatedAt
    by_cases h : x.created_at < m.created_at
    · simp only [h, if_true]
      exact (ih.cons x).trans (List.Perm.swap m x xs)
    · simp only [h, if_false]
      exact List.Perm.refl _

/-- Inserting into a timestamp-sorted list keeps it timestamp-sorted. -/
theorem insertByCreatedAt_sorted (m : StoredMessage) (l : List StoredMessage)
    (hl : List.Pairwise (fun a b => a.created_at ≤ b.created_at) l) :
    List.Pairwise (fun a b => a.created_at ≤ b.created_at) (insertByCreatedAt m l) := by
  induction l with
  | nil => simp [insertByCreatedAt]
  | cons x xs ih =>
    rcases List.pairwise_cons.mp hl with ⟨hx, hxs⟩
    unfold insertByCreatedAt
    by_cases h : x.created_at < m.created_at
    · simp only [h, if_true]
      refine List.pairwise_cons.mpr ⟨?_, ih hxs⟩
      intro b hb
      rcases List.mem_cons.mp (((insertByCreatedAt_perm m xs).mem_iff).mp hb) with rfl | hbx
      · exact Nat.le_of_lt h
      · exact hx b hbx
    · simp only [h, if_false]
      refine List.pairwise_cons.mpr ⟨?_, hl⟩
      intro b hb
      rcases List.mem_cons.mp hb with rfl | hbx
      · exact Nat.le_of_not_lt h
      · exact Nat.le_trans (Nat.le_of_not_lt h) (hx b hbx)

/-- The stable sort permutes its input. -/
theorem sortByCreatedAt_perm (msgs : List StoredMessage) :
    (sortByCreatedAt msgs).Perm msgs := by
  induction msgs with
  | nil => exact List.Perm.refl _
  | cons x xs ih =>
    exact (insertByCreatedAt_perm x (sortByCreatedAt xs)).trans (ih.cons x)

/-- The stable sort is timestamp-sorted. -/
theorem sortByCreatedAt_sorted (msgs : List StoredMessage) :
    List.Pairwise (fun a b => a.created_at ≤ b.created_at) (sortByCreatedAt msgs) := by
  induction msgs with
  | nil => simp [sortByCreatedAt]
  | cons x xs ih => exact insertByCreatedAt_sorted x (sortByCreatedAt xs) ih

/-- C3 (amended): `load_messages` presents each group's stored messages in
ascending `created_at` order (the sort permutes the stored set, truncated
to the last `limit`); messages with equal timestamps keep the order in
which the store yielded them — they are not reordered by event id. -/
theorem load_messages_sorted (msgs : List StoredMessage) (limit : Nat) :
    List.Pairwise (fun a b => a.created_at ≤ b.created_at) (load_messages msgs limit) ∧
      (sortByCreatedAt msgs).Perm msgs := by
  refine ⟨?_, sortByCreatedAt_perm msgs⟩
  unfold load_messages
  by_cases h : limit < (sortByCreatedAt msgs).length
  · simp only [h, if_true]
    exact (sortByCreatedAt_sorted msgs).sublist (List.drop_sublist _ _)
  · simp only [h, if_false]
    exact sortByCreatedAt_sorted msgs

/-- C3 counterexample: two stored messages with the same timestamp whose
directory order is the reverse of their event-id order are presented in
directory order — `load_messages` breaks no ties by event id, so the
presented sequence violates the claimed order. -/
theorem load_messages_tie_counterexample :
    load_messages [⟨"bb", "p1", "m1", 7, "g", "w1", 1, []⟩,
        ⟨"aa", "p2", "m2", 7, "g", "w2", 1, []⟩] 10
      = [⟨"bb", "p1", "m1", 7, "g", "w1", 1, []⟩, ⟨"aa", "p2", "m2", 7, "g", "w2", 1, []⟩] ∧
    ¬ SpecMessageOrder (load_messages [⟨"bb", "p1", "m1", 7, "g", "w1", 1, []⟩,
        ⟨"aa", "p2", "m2", 7, "g", "w2", 1, []⟩] 10) := by
  unfold SpecMessageOrder
  decide

/-- The imeta parse loop only ever stores `x` and `n` values it has just
validated (32-byte and 12-byte hex respectively). -/
theorem parse_imeta_loop_inv (items : List String) (st st' : ImetaFields)
    (hrun : parse_imeta_loop items st = .ok st')
    (hx : ∀ h, st.original_hash_hex = some h →
      ∃ b, hexDecodeList h.data = some b ∧ b.length = 32)
    (hn : ∀ h, st.nonce_hex = some h →
      ∃ b, hexDecodeList h.data = some b ∧ b.length = 12) :
    (∀ h, st'.original_hash_hex = some h →
      ∃ b, hexDecodeList h.data = some b ∧ b.length = 32) ∧
    (∀ h, st'.nonce_hex = some h →
      ∃ b, hexDecodeList h.data = some b ∧ b.length = 12) := by
  induction items generalizing st with
  | nil =>
    simp only [parse_imeta_loop, Except.ok.injEq] at hrun
    subst hrun
    exact ⟨hx, hn⟩
  | cons item rest ih =>
    unfold parse_imeta_loop at hrun
    cases hsp : splitn2Space item.data with
    | none =>
      rw [hsp] at hrun
      exact ih st hrun hx hn
    | some kv =>
      obtain ⟨k, v⟩ := kv
      rw [hsp] at hrun
      simp only at hrun
      split_ifs at hrun with h1 h2 h3 h4 h5 h6 h7
      · exact ih _ hrun hx hn
      · exact ih _ hrun hx hn
      · exact ih _ hrun hx hn
      · cases hd : hexDecodeList v with
        | none => rw [hd] at hrun; cases hrun
        | some b =>
          rw [hd] at hrun
          by_cases hb : b.length = 32
          · simp only [hb, if_true] at hrun
            refine ih _ hrun ?_ hn
            intro h hh
            cases hh
            exact ⟨b, hd, hb⟩
          · simp only [hb, if_false] at hrun
            cases hrun
      · cases hd : hexDecodeList v with
        | none => rw [hd] at hrun; cases hrun
        | some b =>
          rw [hd] at hrun
          by_cases hb : b.length = 12
          · simp only [hb, if_true] at hrun
            refine ih _ hrun hx ?_
            intro h hh
            cases hh
            exact ⟨b, hd, hb⟩
          · simp only [hb, if_false] at hrun
            cases hrun
      · exact ih _ hrun hx hn
      · exact ih _ hrun hx hn
      · exact ih _ hrun hx hn

/-- C5 (amended): every media reference `parse_imeta_tag` accepts has a
32-byte hash, a 12-byte nonce, and scheme version `mip04-v2` (violating
inputs are rejected); `build_media_reference` likewise enforces the hash
and nonce lengths and rejects violations of them, but copies the given
scheme version into the reference unvalidated. -/
theorem media_reference_invariants :
    (∀ (tv : List String) (r : MediaReferenceInfo), parse_imeta_tag tv = .ok r →
      (∃ b, hexDecodeList r.original_hash_hex.data = some b ∧ b.length = 32) ∧
      (∃ b, hexDecodeList r.nonce_hex.data = some b ∧ b.length = 12) ∧
      r.scheme_version = "mip04-v2") ∧
    (∀ (url mt fn xh nh sv : String) (dims : Option String) (r : MediaReference),
      build_media_reference url mt fn xh nh sv dims = .ok r →
        r.original_hash.length = 32 ∧ r.nonce.length = 12 ∧ r.scheme_version = sv) ∧
    (∀ (url mt fn xh nh sv : String) (dims : Option String),
      ((hexDecodeList xh.data).map List.length ≠ some 32 ∨
        (hexDecodeList nh.data).map List.length ≠ some 12) →
      ∃ e, build_media_reference url mt fn xh nh sv dims = .error e) := by
  refine ⟨?_, ?_, ?_⟩
  · intro tv r hr
    unfold parse_imeta_tag at hr
    split at hr
    · cases hr
    · rename_i st hloop
      obtain ⟨hx, hn⟩ := parse_imeta_loop_inv tv _ st hloop
        (by intro h hh; cases hh) (by intro h hh; cases hh)
      split at hr
      · cases hr
      · rename_i ver hver
        split at hr
        · cases hr
        · rename_i hv2
          split at hr
          · cases hr
          · split at hr
            · cases hr
            · rename_i x hxf
              split at hr
              · cases hr
              · split at hr
                · cases hr
                · split at hr
                  · cases hr
                  · rename_i n hnf
                    cases hr
                    exact ⟨hx x hxf, hn n hnf, not_ne_iff.mp hv2⟩
  · intro url mt fn xh nh sv dims r hr
    unfold build_media_reference at hr
    split at hr
    · cases hr
    · rename_i hb hdx
      split at hr
      · cases hr
      · rename_i h32
        split at hr
        · cases hr
        · rename_i nb hdn
          split at hr
          · cases hr
          · rename_i h12
            cases hr
            exact ⟨not_ne_iff.mp h32, not_ne_iff.mp h12, rfl⟩
  · intro url mt fn xh nh sv dims hviol
    unfold build_media_reference
    cases hdx : hexDecodeList xh.data with
    | none => exact ⟨_, rfl⟩
    | some hb =>
      by_cases h32 : hb.length = 32
      · simp only [h32, ne_eq, not_true_eq_false, if_false]
        cases hdn : hexDecodeList nh.data with
        | none => exact ⟨_, rfl⟩
        | some nb =>
          by_cases h12 : nb.length = 12
          · exfalso
            rcases hviol with hv | hv
            · exact hv (by rw [hdx]; simp [h32])
            · exact hv (by rw [hdn]; simp [h12])
          · simp only [h12, ne_eq, not_false_eq_true, if_true]
            exact ⟨_, rfl⟩
      · simp only [h32, ne_eq, not_false_eq_true, if_true]
        exact ⟨_, rfl⟩

/-- C5 witness: a concrete accepted imeta tag has a 32-byte hash, a
12-byte nonce, and version `mip04-v2`. -/
theorem media_reference_invariants_witness :
    (∃ b, hexDecodeList
        ("0000000000000000000000000000000000000000000000000000000000000000" : String).data
        = some b ∧ b.length = 32) ∧
    (∃ b, hexDecodeList ("000000000000000000000000" : String).data
        = some b ∧ b.length = 12) ∧
    ("mip04-v2" : String) = "mip04-v2" :=
  media_reference_invariants.1
    ["url https://x", "m image/png", "filename f.png",
     "x 0000000000000000000000000000000000000000000000000000000000000000",
     "n 000000000000000000000000", "v mip04-v2"]
    ⟨"https://x",
     "0000000000000000000000000000000000000000000000000000000000000000",
     "image/png", "f.png", none, "mip04-v2", "000000000000000000000000"⟩
    (by decide)

/-- C5 counterexample: `build_media_reference` accepts a scheme version
other than `mip04-v2` and copies it into the constructed reference, so not
every constructed media reference carries the implemented version string,
and the violating input is not rejected. -/
theorem build_media_reference_version_unchecked :
    build_media_reference "u" "m" "f"
        "0000000000000000000000000000000000000000000000000000000000000000"
        "000000000000000000000000" "mip04-v1" none
      = .ok ⟨"u", List.replicate 32 0, "m", "f", none, "mip04-v1", List.replicate 12 0⟩ ∧
    ("mip04-v1" : String) ≠ "mip04-v2" := by
  decide

/-- C9: when the download URL carries a hash (a 64-character hex last path
segment), `download_media` compares it with the SHA-256 of the returned
body: on a mismatch it fails with the integrity error — whatever the
decryption function would do, so decryption is never attempted — and on a
match it proceeds to decryption. -/
theorem download_media_integrity :
    (∀ (decrypt : List Nat → MediaReference → Except String (List Nat))
        (url : String) (body : List Nat) (mt fn xh nh sv : String)
        (dims : Option String) (uh : List Char),
        (splitOnChar '/' url.data).getLast? = some uh →
        uh.length = 64 → (hexDecodeList uh).isSome = true →
        String.mk uh ≠ sha256Hex body →
        download_media decrypt true url body mt fn xh nh sv dims =
          .error "Download integrity check failed") ∧
    (∀ (decrypt : List Nat → MediaReference → Except String (List Nat))
        (url : String) (body : List Nat) (mt fn xh nh sv : String)
        (dims : Option String) (uh : List Char),
        (splitOnChar '/' url.data).getLast? = some uh →
        String.mk uh = sha256Hex body →
        download_media decrypt true url body mt fn xh nh sv dims =
          decrypt_file decrypt body url mt fn xh nh sv dims) := by
  constructor
  · intro decrypt url body mt fn xh nh sv dims uh hlast h64 hsome hne
    unfold download_media
    rw [hlast]
    simp [h64, hsome, hne]
  · intro decrypt url body mt fn xh nh sv dims uh hlast heq
    unfold download_media
    rw [hlast]
    simp [heq]

/-- C9 witness: the empty body hashes to the well-known empty-message
digest, which differs from the all-zero hash in the URL, so the concrete
download fails with the integrity error for an arbitrary decryptor. -/
theorem download_media_integrity_witness :
    download_media (fun _ _ => .ok []) true
        "http://s/0000000000000000000000000000000000000000000000000000000000000000"
        [] "m" "f" "x" "n" "v" none
      = .error "Download integrity check failed" :=
  download_media_integrity.1 (fun _ _ => .ok [])
    "http://s/0000000000000000000000000000000000000000000000000000000000000000"
    [] "m" "f" "x" "n" "v" none
    "0000000000000000000000000000000000000000000000000000000000000000".data
    (by decide) (by decide) (by decide) (by decide)

/-- A decoded hex digit is below 16. -/
theorem hexVal_lt (c : Char) (v : Nat) (h : hexVal c = some v) : v < 16 := by
  unfold hexVal at h
  split_ifs at h with h1 h2 h3
  · injection h with h
    omega
  · injection h with h
    omega
  · injection h with h
    omega

/-- A lower-case hex digit always decodes. -/
theorem hexVal_of_lower (c : Char) (hl : isLowerHexDigit c = true) :
    ∃ v, hexVal c = some v := by
  simp only [isLowerHexDigit, decide_eq_true_eq] at hl
  unfold hexVal
  split_ifs with h1 h2 h3
  · exact ⟨_, rfl⟩
  · exact ⟨_, rfl⟩
  · exact ⟨_, rfl⟩
  · exact absurd hl (by omega)

/-- Encoding a digit decoded from a lower-case hex character restores the
character. -/
theorem hexDigitChar_hexVal (c : Char) (v : Nat) (hl : isLowerHexDigit c = true)
    (h : hexVal c = some v) : hexDigitChar v = c := by
  simp only [isLowerHexDigit, decide_eq_true_eq] at hl
  have hc : c = Char.ofNat c.toNat := (Char.ofNat_toNat c).symm
  unfold hexVal at h
  set n := c.toNat with hn
  split_ifs at h with h1 h2 h3
  · injection h with h
    subst h
    rw [hc]
    have hb1 : 48 ≤ n := h1.1
    have hb2 : n ≤ 57 := h1.2
    interval_cases n <;> decide
  · injection h with h
    subst h
    rw [hc]
    have hb1 : 97 ≤ n := h2.1
    have hb2 : n ≤ 102 := h2.2
    interval_cases n <;> decide
  · exact absurd hl (by omega)

/-- Decoded hex yields half as many bytes, all below 256. -/
theorem hexDecodeList_bytes (cs : List Char) (bs : List Nat)
    (h : hexDecodeList cs = some bs) :
    cs.length = 2 * bs.length ∧ ∀ b ∈ bs, b < 256 := by
  induction cs using hexDecodeList.induct generalizing bs with
  | case1 =>
    injection h with h
    subst h
    exact ⟨rfl, by simp⟩
  | case2 c => cases h
  | case3 c1 c2 rest v1 v2 bs' hrest hv2 hv1 ih =>
    have hrw : hexDecodeList (c1 :: c2 :: rest) = some ((16 * v1 + v2) :: bs') := by
      unfold hexDecodeList
      rw [hv1, hv2, hrest]
    rw [hrw] at h
    injection h with h
    subst h
    obtain ⟨hlen, hmem⟩ := ih bs' hrest
    refine ⟨by simp [hlen]; omega, ?_⟩
    intro b hb
    rcases List.mem_cons.mp hb with rfl | hb
    · have := hexVal_lt c1 v1 hv1
      have := hexVal_lt c2 v2 hv2
      omega
    · exact hmem b hb
  | case4 c1 c2 rest hfail ih =>
    exfalso
    unfold hexDecodeList at h
    split at h
    · rename_i v1 v2 bs' hv1 hv2 hrest
      exact hfail v1 v2 bs' hv1 hv2 hrest
    · cases h

/-- Re-encoding bytes decoded from lower-case hex restores the characters. -/
theorem hexEncodeList_hexDecodeList (cs : List Char) (bs : List Nat)
    (hlow : ∀ c ∈ cs, isLowerHexDigit c = true)
    (h : hexDecodeList cs = some bs) : hexEncodeList bs = cs := by
  induction cs using hexDecodeList.induct generalizing bs with
  | case1 =>
    injection h with h
    subst h
    rfl
  | case2 c => cases h
  | case3 c1 c2 rest v1 v2 bs' hrest hv2 hv1 ih =>
    have hrw : hexDecodeList (c1 :: c2 :: rest) = some ((16 * v1 + v2) :: bs') := by
      unfold hexDecodeList
      rw [hv1, hv2, hrest]
    rw [hrw] at h
    injection h with h
    subst h
    have hv1lt := hexVal_lt c1 v1 hv1
    have hv2lt := hexVal_lt c2 v2 hv2
    have hdiv : (16 * v1 + v2) / 16 = v1 := by omega
    have hmod : (16 * v1 + v2) % 16 = v2 := by omega
    unfold hexEncodeList
    rw [hdiv, hmod,
      hexDigitChar_hexVal c1 v1 (hlow c1 (by simp)) hv1,
      hexDigitChar_hexVal c2 v2 (hlow c2 (by simp)) hv2,
      ih bs' (fun c hc => hlow c (by simp [hc])) hrest]
  | case4 c1 c2 rest hfail ih =>
    exfalso
    unfold hexDecodeList at h
    split at h
    · rename_i v1 v2 bs' hv1 hv2 hrest
      exact hfail v1 v2 bs' hv1 hv2 hrest
    · cases h

/-- Even-length lower-case hex always decodes, to half as many bytes. -/
theorem hexDecodeList_of_lower (cs : List Char)
    (hlow : ∀ c ∈ cs, isLowerHexDigit c = true) (heven : cs.length % 2 = 0) :
    ∃ bs, hexDecodeList cs = some bs ∧ cs.length = 2 * bs.length := by
  induction cs using hexDecodeList.induct with
  | case1 => exact ⟨[], rfl, rfl⟩
  | case2 c => simp at heven
  | case3 c1 c2 rest v1 v2 bs' hrest hv2 hv1 ih =>
    obtain ⟨bs, hbs, hlen⟩ := ih (fun c hc => hlow c (by simp [hc]))
      (by simp at heven ⊢; omega)
    refine ⟨(16 * v1 + v2) :: bs, ?_, by simp [hlen]; omega⟩
    unfold hexDecodeList
    rw [hv1, hv2, hbs]
  | case4 c1 c2 rest hfail ih =>
    exfalso
    obtain ⟨v1, hv1⟩ := hexVal_of_lower c1 (hlow c1 (by simp))
    obtain ⟨v2, hv2⟩ := hexVal_of_lower c2 (hlow c2 (by simp))
    obtain ⟨bs, hbs, hlen⟩ := ih (fun c hc => hlow c (by simp [hc]))
      (by simp at heven ⊢; omega)
    exact hfail v1 v2 bs hv1 hv2 hbs

/-- Byte to bits and back. -/
theorem bitsToNat_natBits8 : ∀ b < 256, bitsToNat (natBits8 b) = b := by decide

/-- Five bits to a value and back. -/
theorem natBits5_bitsToNat (a b c d e : Bool) :
    natBits5 (bitsToNat [a, b, c, d, e]) = [a, b, c, d, e] := by
  cases a <;> cases b <;> cases c <;> cases d <;> cases e <;> decide

/-- A five-bit group is below 32. -/
theorem bitsToNat_lt_32 (a b c d e : Bool) : bitsToNat [a, b, c, d, e] < 32 := by
  cases a <;> cases b <;> cases c <;> cases d <;> cases e <;> decide

/-- Bytes contribute eight bits each. -/
theorem length_flatMap_natBits8 (bytes : List Nat) :
    (bytes.flatMap natBits8).length = 8 * bytes.length := by
  induction bytes with
  | nil => rfl
  | cons b rest ih =>
    simp only [List.flatMap_cons, List.length_append, ih, natBits8]
    simp only [List.length_cons, List.length_nil]
    omega

/-- Splitting into five-bit groups and flattening them back through the
5-bit value codec is the identity on bit lists of length divisible by 5. -/
theorem flatMap_natBits5_chunk5 (l : List Bool) (h : l.length % 5 = 0) :
    ((chunk5 l).map bitsToNat).flatMap natBits5 = l := by
  induction l using chunk5.induct with
  | case1 a b c d e r ih =>
    have hr : r.length % 5 = 0 := by
      simp only [List.length_cons] at h
      omega
    simp only [chunk5, List.map_cons, List.flatMap_cons, natBits5_bitsToNat, ih hr]
    rfl
  | case2 => rfl
  | case3 r h5 hnil =>
    exfalso
    rcases r with _ | ⟨a, _ | ⟨b, _ | ⟨c, _ | ⟨d, _ | ⟨e, r'⟩⟩⟩⟩⟩
    · exact hnil rfl
    · simp at h
    · simp at h
    · simp at h
    · simp at h
    · exact h5 a b c d e r' rfl

/-- Every five-bit group of such a split is below 32. -/
theorem chunk5_fes_lt (l : List Bool) (h : l.length % 5 = 0) :
    ∀ v ∈ (chunk5 l).map bitsToNat, v < 32 := by
  induction l using chunk5.induct with
  | case1 a b c d e r ih =>
    have hr : r.length % 5 = 0 := by
      simp only [List.length_cons] at h
      omega
    intro v hv
    simp only [chunk5, List.map_cons, List.mem_cons] at hv
    rcases hv with rfl | hv
    · exact bitsToNat_lt_32 a b c d e
    · exact ih hr v hv
  | case2 => simp [chunk5]
  | case3 r h5 hnil =>
    exfalso
    rcases r with _ | ⟨a, _ | ⟨b, _ | ⟨c, _ | ⟨d, _ | ⟨e, r'⟩⟩⟩⟩⟩
    · exact hnil rfl
    · simp at h
    · simp at h
    · simp at h
    · simp at h
    · exact h5 a b c d e r' rfl

/-- The number of five-bit groups. -/
theorem chunk5_length (l : List Bool) (h : l.length % 5 = 0) :
    (chunk5 l).length = l.length / 5 := by
  induction l using chunk5.induct with
  | case1 a b c d e r ih =>
    have hr : r.length % 5 = 0 := by
      simp only [List.length_cons] at h
      omega
    simp only [chunk5, List.length_cons, ih hr]
    omega
  | case2 => rfl
  | case3 r h5 hnil =>
    exfalso
    rcases r with _ | ⟨a, _ | ⟨b, _ | ⟨c, _ | ⟨d, _ | ⟨e, r'⟩⟩⟩⟩⟩
    · exact hnil rfl
    · simp at h
    · simp at h
    · simp at h
    · simp at h
    · exact h5 a b c d e r' rfl

/-- Regrouping the bit stream of a byte list into eight-bit groups restores
the bytes. -/
theorem chunk8_flatMap_natBits8 (bytes : List Nat) (h : ∀ b ∈ bytes, b < 256) :
    (chunk8 (bytes.flatMap natBits8)).map bitsToNat = bytes := by
  induction bytes with
  | nil => rfl
  | cons b rest ih =>
    have hb := h b (by simp)
    have hrest := fun x hx => h x (List.mem_cons_of_mem _ hx)
    simp only [List.flatMap_cons, natBits8, List.cons_append, List.nil_append]
    simp only [chunk8, List.map_cons]
    rw [ih hrest]
    have : bitsToNat [b.testBit 7, b.testBit 6, b.testBit 5, b.testBit 4,
        b.testBit 3, b.testBit 2, b.testBit 1, b.testBit 0] = b :=
      bitsToNat_natBits8 b hb
    rw [this]

/-- The 8→5 regrouping of 32 bytes stands as 52 five-bit groups whose 5→8
regrouping restores the bytes. -/
theorem fesToBytes_bytesToFes (bytes : List Nat) (hmem : ∀ b ∈ bytes, b < 256)
    (hlen : bytes.length = 32) : fesToBytes (bytesToFes bytes) = some bytes := by
  have hbits : (bytes.flatMap natBits8).length = 256 := by
    rw [length_flatMap_natBits8, hlen]
  have hfes : bytesToFes bytes =
      (chunk5 (bytes.flatMap natBits8 ++ List.replicate 4 false)).map bitsToNat := by
    simp only [bytesToFes]
    rw [show (5 - (bytes.flatMap natBits8).length % 5) % 5 = 4 by rw [hbits]]
  have hX5 : (bytes.flatMap natBits8 ++ List.replicate 4 false).length % 5 = 0 := by
    simp [hbits]
  have hXB : ((chunk5 (bytes.flatMap natBits8 ++ List.replicate 4 false)).map
      bitsToNat).flatMap natBits5 = bytes.flatMap natBits8 ++ List.replicate 4 false :=
    flatMap_natBits5_chunk5 _ hX5
  have hXlen : (bytes.flatMap natBits8 ++ List.replicate 4 false).length = 260 := by
    simp [hbits]
  rw [hfes]
  simp only [fesToBytes]
  rw [hXB, hXlen]
  have hdrop : (bytes.flatMap natBits8 ++ List.replicate 4 false).drop (260 - 260 % 8)
      = List.replicate 4 false := by
    have h256 : 260 - 260 % 8 = (bytes.flatMap natBits8).length := by
      rw [hbits]
    rw [h256, List.drop_left]
  have htake : (bytes.flatMap natBits8 ++ List.replicate 4 false).take (260 - 260 % 8)
      = bytes.flatMap natBits8 := by
    have h256 : 260 - 260 % 8 = (bytes.flatMap natBits8).length := by
      rw [hbits]
    rw [h256, List.take_left]
  rw [hdrop, htake]
  simp only [show ¬(5 ≤ 260 % 8) by omega, if_false]
  rw [if_pos (by decide)]
  rw [chunk8_flatMap_natBits8 bytes hmem]

/-- Xor left commutativity (for AC normalisation). -/
theorem xor_left_comm (a b c : Nat) : a ^^^ (b ^^^ c) = b ^^^ (a ^^^ c) := by
  rw [← Nat.xor_assoc, Nat.xor_comm a b, Nat.xor_assoc]

/-- Left shift distributes over xor. -/
theorem shiftLeft_xor (a b n : Nat) : (a ^^^ b) <<< n = (a <<< n) ^^^ (b <<< n) := by
  apply Nat.eq_of_testBit_eq
  intro i
  simp only [Nat.testBit_shiftLeft, Nat.testBit_xor]
  by_cases h : n ≤ i <;> simp [h, ge_iff_le]

/-- Composed left shifts add. -/
theorem shiftLeft_shiftLeft (a m n : Nat) : (a <<< m) <<< n = a <<< (m + n) := by
  simp only [Nat.shiftLeft_eq, Nat.pow_add]
  ring

/-- Xor below bit 25 does not change the polynomial's high bits. -/
theorem shiftRight_xor_of_lt (chk d : Nat) (hd : d < 2 ^ 25) :
    (chk ^^^ d) >>> 25 = chk >>> 25 := by
  apply Nat.eq_of_testBit_eq
  intro i
  simp only [Nat.testBit_shiftRight, Nat.testBit_xor]
  have hbit : d.testBit (25 + i) = false :=
    Nat.testBit_lt_two_pow
      (lt_of_lt_of_le hd (Nat.pow_le_pow_right (by norm_num) (by omega)))
  simp [hbit]

/-- Xor below bit 25 passes through the 25-bit mask. -/
theorem and_mask_xor_of_lt (chk d : Nat) (hd : d < 2 ^ 25) :
    (chk ^^^ d) &&& 0x1ffffff = (chk &&& 0x1ffffff) ^^^ d := by
  have hM : (0x1ffffff : Nat) = 2 ^ 25 - 1 := by norm_num
  rw [Nat.and_xor_distrib_right]
  congr 1
  rw [hM, Nat.and_pow_two_sub_one_eq_mod, Nat.mod_eq_of_lt hd]

/-- A polynomial step is the zero step xored with the fed value. -/
theorem polymodStep_zero (chk v : Nat) : polymodStep chk v = polymodStep chk 0 ^^^ v := by
  unfold polymodStep
  generalize (if (chk >>> 25) &&& 1 ≠ 0 then (0x3b6a57b2 : Nat) else 0) = g1
  generalize (if (chk >>> 25) &&& 2 ≠ 0 then (0x26508e6d : Nat) else 0) = g2
  generalize (if (chk >>> 25) &&& 4 ≠ 0 then (0x1ea119fa : Nat) else 0) = g3
  generalize (if (chk >>> 25) &&& 8 ≠ 0 then (0x3d4233dd : Nat) else 0) = g4
  generalize (if (chk >>> 25) &&& 16 ≠ 0 then (0x2a1462b3 : Nat) else 0) = g5
  generalize (chk &&& 0x1ffffff) <<< 5 = X
  simp only [Nat.xor_zero]
  simp [Nat.xor_assoc, Nat.xor_comm, xor_left_comm]

/-- Feeding a state xored with a value below bit 25 shifts that value
through one polynomial step. -/
theorem polymodStep_linear (chk d v : Nat) (hd : d < 2 ^ 25) :
    polymodStep (chk ^^^ d) v = polymodStep chk v ^^^ (d <<< 5) := by
  unfold polymodStep
  rw [shiftRight_xor_of_lt chk d hd, and_mask_xor_of_lt chk d hd, shiftLeft_xor]
  generalize (if (chk >>> 25) &&& 1 ≠ 0 then (0x3b6a57b2 : Nat) else 0) = g1
  generalize (if (chk >>> 25) &&& 2 ≠ 0 then (0x26508e6d : Nat) else 0) = g2
  generalize (if (chk >>> 25) &&& 4 ≠ 0 then (0x1ea119fa : Nat) else 0) = g3
  generalize (if (chk >>> 25) &&& 8 ≠ 0 then (0x3d4233dd : Nat) else 0) = g4
  generalize (if (chk >>> 25) &&& 16 ≠ 0 then (0x2a1462b3 : Nat) else 0) = g5
  generalize (chk &&& 0x1ffffff) <<< 5 = X
  generalize d <<< 5 = D
  simp [Nat.xor_assoc, Nat.xor_comm, xor_left_comm]

/-- The polynomial state stays below 2^30. -/
theorem polymodStep_lt (chk v : Nat) (hv : v < 2 ^ 30) : polymodStep chk v < 2 ^ 30 := by
  unfold polymodStep
  have hX : (chk &&& 0x1ffffff) <<< 5 < 2 ^ 30 := by
    have h1 : chk &&& 0x1ffffff < 2 ^ 25 := lt_of_le_of_lt Nat.and_le_right (by norm_num)
    rw [Nat.shiftLeft_eq]
    have h2 : chk &&& 0x1ffffff ≤ 2 ^ 25 - 1 := by omega
    have h3 : (chk &&& 0x1ffffff) * 2 ^ 5 ≤ (2 ^ 25 - 1) * 2 ^ 5 :=
      Nat.mul_le_mul_right _ h2
    calc (chk &&& 0x1ffffff) * 2 ^ 5 ≤ (2 ^ 25 - 1) * 2 ^ 5 := h3
      _ < 2 ^ 30 := by norm_num
  have hg1 : (if (chk >>> 25) &&& 1 ≠ 0 then (0x3b6a57b2 : Nat) else 0) < 2 ^ 30 := by
    split <;> norm_num
  have hg2 : (if (chk >>> 25) &&& 2 ≠ 0 then (0x26508e6d : Nat) else 0) < 2 ^ 30 := by
    split <;> norm_num
  have hg3 : (if (chk >>> 25) &&& 4 ≠ 0 then (0x1ea119fa : Nat) else 0) < 2 ^ 30 := by
    split <;> norm_num
  have hg4 : (if (chk >>> 25) &&& 8 ≠ 0 then (0x3d4233dd : Nat) else 0) < 2 ^ 30 := by
    split <;> norm_num
  have hg5 : (if (chk >>> 25) &&& 16 ≠ 0 then (0x2a1462b3 : Nat) else 0) < 2 ^ 30 := by
    split <;> norm_num
  exact Nat.xor_lt_two_pow
    (Nat.xor_lt_two_pow
      (Nat.xor_lt_two_pow
        (Nat.xor_lt_two_pow (Nat.xor_lt_two_pow (Nat.xor_lt_two_pow hX hv) hg1) hg2)
        hg3)
      hg4)
    hg5

/-- The polynomial of any value list of 30-bit inputs stays below 2^30. -/
theorem foldl_polymodStep_lt (l : List Nat) (acc : Nat) (hacc : acc < 2 ^ 30)
    (hl : ∀ v ∈ l, v < 2 ^ 30) : l.foldl polymodStep acc < 2 ^ 30 := by
  induction l generalizing acc with
  | nil => exact hacc
  | cons v rest ih =>
    exact ih (polymodStep acc v) (polymodStep_lt acc v (hl v (by simp)))
      (fun x hx => hl x (by simp [hx]))

/-- `polymod` of 30-bit inputs stays below 2^30. -/
theorem polymod_lt (l : List Nat) (hl : ∀ v ∈ l, v < 2 ^ 30) : polymod l < 2 ^ 30 :=
  foldl_polymodStep_lt l 1 (by norm_num) hl

/-- Reassembling the six 5-bit chunks of a 30-bit value restores it. -/
theorem xor_chunks (pm : Nat) (hpm : pm < 2 ^ 30) :
    ((pm >>> 25) &&& 31) <<< 25 ^^^ ((pm >>> 20) &&& 31) <<< 20
      ^^^ ((pm >>> 15) &&& 31) <<< 15 ^^^ ((pm >>> 10) &&& 31) <<< 10
      ^^^ ((pm >>> 5) &&& 31) <<< 5 ^^^ (pm &&& 31) = pm := by
  apply Nat.eq_of_testBit_eq
  intro j
  have h31 : (31 : Nat) = 2 ^ 5 - 1 := by norm_num
  simp only [Nat.testBit_xor, Nat.testBit_shiftLeft, Nat.testBit_and,
    Nat.testBit_shiftRight, h31, Nat.testBit_two_pow_sub_one, ge_iff_le]
  rcases Nat.lt_or_ge j 30 with hj | hj
  · interval_cases j <;> simp
  · have hpmj : pm.testBit j = false :=
      Nat.testBit_lt_two_pow
        (lt_of_lt_of_le hpm (Nat.pow_le_pow_right (by norm_num) hj))
    have e25 : decide (j - 25 < 5) = false := by simp; omega
    have e20 : decide (j - 20 < 5) = false := by simp; omega
    have e15 : decide (j - 15 < 5) = false := by simp; omega
    have e10 : decide (j - 10 < 5) = false := by simp; omega
    have e5 : decide (j - 5 < 5) = false := by simp; omega
    have e0 : decide (j < 5) = false := by simp; omega
    simp [hpmj, e25, e20, e15, e10, e5, e0]

/-- Helper: a masked 5-bit chunk shifted by at most 20 stays below 2^25. -/
theorem shifted31_lt (x k : Nat) (hk : k ≤ 20) : (x &&& 31) <<< k < 2 ^ 25 := by
  rw [Nat.shiftLeft_eq]
  have h1 : x &&& 31 ≤ 31 := Nat.and_le_right
  have h2 : (2 : Nat) ^ k ≤ 2 ^ 20 := Nat.pow_le_pow_right (by norm_num) hk
  calc (x &&& 31) * 2 ^ k ≤ 31 * 2 ^ 20 := Nat.mul_le_mul h1 h2
    _ < 2 ^ 25 := by norm_num

theorem and31_lt (x : Nat) : x &&& 31 < 2 ^ 25 :=
  lt_of_le_of_lt Nat.and_le_right (by norm_num)

/-- The six checksum digits make the polynomial close at the Bech32
constant: appending them to any prefix yields polymod 1. -/
theorem foldl_polymodStep_checksum (c0 : Nat) :
    List.foldl polymodStep c0
      [((List.foldl polymodStep c0 [0, 0, 0, 0, 0, 0] ^^^ 1) >>> 25) &&& 31,
       ((List.foldl polymodStep c0 [0, 0, 0, 0, 0, 0] ^^^ 1) >>> 20) &&& 31,
       ((List.foldl polymodStep c0 [0, 0, 0, 0, 0, 0] ^^^ 1) >>> 15) &&& 31,
       ((List.foldl polymodStep c0 [0, 0, 0, 0, 0, 0] ^^^ 1) >>> 10) &&& 31,
       ((List.foldl polymodStep c0 [0, 0, 0, 0, 0, 0] ^^^ 1) >>> 5) &&& 31,
       (List.foldl polymodStep c0 [0, 0, 0, 0, 0, 0] ^^^ 1) &&& 31] = 1 := by
  simp only [List.foldl_cons, List.foldl_nil]
  set pm := polymodStep (polymodStep (polymodStep (polymodStep (polymodStep
    (polymodStep c0 0) 0) 0) 0) 0) 0 ^^^ 1 with hpm
  set a1 := (pm >>> 25) &&& 31 with ha1def
  set a2 := (pm >>> 20) &&& 31 with ha2def
  set a3 := (pm >>> 15) &&& 31 with ha3def
  set a4 := (pm >>> 10) &&& 31 with ha4def
  set a5 := (pm >>> 5) &&& 31 with ha5def
  set a6 := pm &&& 31 with ha6def
  have hT : polymodStep (polymodStep (polymodStep (polymodStep (polymodStep
      (polymodStep c0 0) 0) 0) 0) 0) 0 = pm ^^^ 1 := by
    rw [hpm, Nat.xor_assoc, Nat.xor_self, Nat.xor_zero]
  have hpmlt : pm < 2 ^ 30 := by
    rw [hpm]
    exact Nat.xor_lt_two_pow (polymodStep_lt _ 0 (by norm_num)) (by norm_num)
  have hc : a1 <<< 25 ^^^ a2 <<< 20 ^^^ a3 <<< 15 ^^^ a4 <<< 10 ^^^ a5 <<< 5 ^^^ a6 = pm := by
    rw [ha1def, ha2def, ha3def, ha4def, ha5def, ha6def]
    exact xor_chunks pm hpmlt
  have ha1lt : a1 < 2 ^ 25 := by
    rw [ha1def]
    exact and31_lt _
  have ha2lt : a2 < 2 ^ 25 := by
    rw [ha2def]
    exact and31_lt _
  have ha3lt : a3 < 2 ^ 25 := by
    rw [ha3def]
    exact and31_lt _
  have ha4lt : a4 < 2 ^ 25 := by
    rw [ha4def]
    exact and31_lt _
  have ha5lt : a5 < 2 ^ 25 := by
    rw [ha5def]
    exact and31_lt _
  have hsh : ∀ k ≤ 20, a1 <<< k < 2 ^ 25 ∧ a2 <<< k < 2 ^ 25 ∧ a3 <<< k < 2 ^ 25
      ∧ a4 <<< k < 2 ^ 25 ∧ a5 <<< k < 2 ^ 25 := by
    intro k hk
    rw [ha1def, ha2def, ha3def, ha4def, ha5def]
    exact ⟨shifted31_lt _ k hk, shifted31_lt _ k hk, shifted31_lt _ k hk,
      shifted31_lt _ k hk, shifted31_lt _ k hk⟩
  clear_value pm a1 a2 a3 a4 a5 a6
  clear hpm ha1def ha2def ha3def ha4def ha5def ha6def
  have hd2 : a2 ^^^ a1 <<< 5 < 2 ^ 25 :=
    Nat.xor_lt_two_pow ha2lt (hsh 5 (by norm_num)).1
  have hd3 : a3 ^^^ (a2 <<< 5 ^^^ a1 <<< 10) < 2 ^ 25 :=
    Nat.xor_lt_two_pow ha3lt
      (Nat.xor_lt_two_pow (hsh 5 (by norm_num)).2.1 (hsh 10 (by norm_num)).1)
  have hd4 : a4 ^^^ (a3 <<< 5 ^^^ (a2 <<< 10 ^^^ a1 <<< 15)) < 2 ^ 25 :=
    Nat.xor_lt_two_pow ha4lt
      (Nat.xor_lt_two_pow (hsh 5 (by norm_num)).2.2.1
        (Nat.xor_lt_two_pow (hsh 10 (by norm_num)).2.1 (hsh 15 (by norm_num)).1))
  have hd5 : a5 ^^^ (a4 <<< 5 ^^^ (a3 <<< 10 ^^^ (a2 <<< 15 ^^^ a1 <<< 20))) < 2 ^ 25 :=
    Nat.xor_lt_two_pow ha5lt
      (Nat.xor_lt_two_pow (hsh 5 (by norm_num)).2.2.2.1
        (Nat.xor_lt_two_pow (hsh 10 (by norm_num)).2.2.1
          (Nat.xor_lt_two_pow (hsh 15 (by norm_num)).2.1 (hsh 20 (by norm_num)).1)))
  have hs2 : (a2 ^^^ a1 <<< 5) <<< 5 = a2 <<< 5 ^^^ a1 <<< 10 := by
    rw [shiftLeft_xor, shiftLeft_shiftLeft]
  have hs3 : (a3 ^^^ (a2 <<< 5 ^^^ a1 <<< 10)) <<< 5
      = a3 <<< 5 ^^^ (a2 <<< 10 ^^^ a1 <<< 15) := by
    rw [shiftLeft_xor, shiftLeft_xor, shiftLeft_shiftLeft, shiftLeft_shiftLeft]
  have hs4 : (a4 ^^^ (a3 <<< 5 ^^^ (a2 <<< 10 ^^^ a1 <<< 15))) <<< 5
      = a4 <<< 5 ^^^ (a3 <<< 10 ^^^ (a2 <<< 15 ^^^ a1 <<< 20)) := by
    rw [shiftLeft_xor, shiftLeft_xor, shiftLeft_xor, shiftLeft_shiftLeft,
      shiftLeft_shiftLeft, shiftLeft_shiftLeft]
  have hs5 : (a5 ^^^ (a4 <<< 5 ^^^ (a3 <<< 10 ^^^ (a2 <<< 15 ^^^ a1 <<< 20)))) <<< 5
      = a5 <<< 5 ^^^ (a4 <<< 10 ^^^ (a3 <<< 15 ^^^ (a2 <<< 20 ^^^ a1 <<< 25))) := by
    rw [shiftLeft_xor, shiftLeft_xor, shiftLeft_xor, shiftLeft_xor,
      shiftLeft_shiftLeft, shiftLeft_shiftLeft, shiftLeft_shiftLeft, shiftLeft_shiftLeft]
  rw [polymodStep_zero c0 a1]
  rw [polymodStep_linear (polymodStep c0 0) a1 a2 ha1lt]
  rw [polymodStep_zero (polymodStep c0 0) a2]
  rw [Nat.xor_assoc (polymodStep (polymodStep c0 0) 0) a2 (a1 <<< 5)]
  rw [polymodStep_linear (polymodStep (polymodStep c0 0) 0) (a2 ^^^ a1 <<< 5) a3 hd2]
  rw [polymodStep_zero (polymodStep (polymodStep c0 0) 0) a3]
  rw [hs2]
  rw [Nat.xor_assoc (polymodStep (polymodStep (polymodStep c0 0) 0) 0) a3
    (a2 <<< 5 ^^^ a1 <<< 10)]
  rw [polymodStep_linear (polymodStep (polymodStep (polymodStep c0 0) 0) 0)
    (a3 ^^^ (a2 <<< 5 ^^^ a1 <<< 10)) a4 hd3]
  rw [polymodStep_zero (polymodStep (polymodStep (polymodStep c0 0) 0) 0) a4]
  rw [hs3]
  rw [Nat.xor_assoc (polymodStep (polymodStep (polymodStep (polymodStep c0 0) 0) 0) 0) a4
    (a3 <<< 5 ^^^ (a2 <<< 10 ^^^ a1 <<< 15))]
  rw [polymodStep_linear (polymodStep (polymodStep (polymodStep (polymodStep c0 0) 0) 0) 0)
    (a4 ^^^ (a3 <<< 5 ^^^ (a2 <<< 10 ^^^ a1 <<< 15))) a5 hd4]
  rw [polymodStep_zero (polymodStep (polymodStep (polymodStep (polymodStep c0 0) 0) 0) 0) a5]
  rw [hs4]
  rw [Nat.xor_assoc
    (polymodStep (polymodStep (polymodStep (polymodStep (polymodStep c0 0) 0) 0) 0) 0) a5
    (a4 <<< 5 ^^^ (a3 <<< 10 ^^^ (a2 <<< 15 ^^^ a1 <<< 20)))]
  rw [polymodStep_linear
    (polymodStep (polymodStep (polymodStep (polymodStep (polymodStep c0 0) 0) 0) 0) 0)
    (a5 ^^^ (a4 <<< 5 ^^^ (a3 <<< 10 ^^^ (a2 <<< 15 ^^^ a1 <<< 20)))) a6 hd5]
  rw [polymodStep_zero
    (polymodStep (polymodStep (polymodStep (polymodStep (polymodStep c0 0) 0) 0) 0) 0) a6]
  rw [hs5]
  rw [hT]
  have hfinal : ((pm ^^^ 1) ^^^ a6)
        ^^^ (a5 <<< 5 ^^^ (a4 <<< 10 ^^^ (a3 <<< 15 ^^^ (a2 <<< 20 ^^^ a1 <<< 25))))
      = (pm ^^^ 1)
        ^^^ (a1 <<< 25 ^^^ a2 <<< 20 ^^^ a3 <<< 15 ^^^ a4 <<< 10 ^^^ a5 <<< 5 ^^^ a6) := by
    simp [Nat.xor_assoc, Nat.xor_comm, xor_left_comm]
  rw [hfinal, hc]
  rw [Nat.xor_comm pm 1, Nat.xor_assoc, Nat.xor_self, Nat.xor_zero]

/-- Data characters decode back to their 5-bit values. -/
theorem charToFe_feToChar : ∀ v < 32, charToFe (feToChar v) = some v := by decide

/-- A mapped data-character list decodes back to its values. -/
theorem charsToFes_map_feToChar (fes : List Nat) (h : ∀ v ∈ fes, v < 32) :
    charsToFes (fes.map feToChar) = some fes := by
  induction fes with
  | nil => rfl
  | cons v rest ih =>
    simp only [List.map_cons, charsToFes]
    rw [charToFe_feToChar v (h v (by simp)), ih (fun x hx => h x (by simp [hx]))]

/-- Bech32 data characters are never upper case. -/
theorem feToChar_not_upper (v : Nat) : (feToChar v).isUpper = false := by
  by_cases h : v < 32
  · exact (by decide : ∀ v < 32, (feToChar v).isUpper = false) v h
  · unfold feToChar
    rw [List.getD_eq_default _ _ (by simp [BECH32_CHARSET]; omega)]
    decide

/-- Bech32 data characters are never the separator. -/
theorem feToChar_ne_one (v : Nat) : feToChar v ≠ '1' := by
  by_cases h : v < 32
  · exact (by decide : ∀ v < 32, feToChar v ≠ '1') v h
  · unfold feToChar
    rw [List.getD_eq_default _ _ (by simp [BECH32_CHARSET]; omega)]
    decide

/-- Bech32 data characters are already lower case. -/
theorem toLower_feToChar (v : Nat) : Char.toLower (feToChar v) = feToChar v := by
  by_cases h : v < 32
  · exact (by decide : ∀ v < 32, Char.toLower (feToChar v) = feToChar v) v h
  · unfold feToChar
    rw [List.getD_eq_default _ _ (by simp [BECH32_CHARSET]; omega)]
    decide

/-- `takeWhile` of an all-satisfying list is the list. -/
theorem takeWhile_eq_self_of_all {α : Type} (p : α → Bool) (l : List α)
    (h : ∀ x ∈ l, p x = true) : l.takeWhile p = l := by
  induction l with
  | nil => rfl
  | cons x xs ih =>
    rw [List.takeWhile_cons, if_pos (h x (by simp)), ih (fun y hy => h y (by simp [hy]))]

/-- The 8→5 regrouping always yields 5-bit values. -/
theorem bytesToFes_lt (bytes : List Nat) : ∀ v ∈ bytesToFes bytes, v < 32 := by
  simp only [bytesToFes]
  apply chunk5_fes_lt
  simp [length_flatMap_natBits8]
  omega

/-- The checksum digits are 5-bit values. -/
theorem createChecksum_lt (hrp : List Char) (data : List Nat) :
    ∀ v ∈ createChecksum hrp data, v < 32 := by
  intro v hv
  simp only [createChecksum, List.mem_cons, List.not_mem_nil, or_false] at hv
  rcases hv with rfl | rfl | rfl | rfl | rfl | rfl <;>
    exact lt_of_le_of_lt Nat.and_le_right (by norm_num)

/-- 32 bytes regroup into 52 five-bit groups. -/
theorem bytesToFes_length32 (bytes : List Nat) (hlen : bytes.length = 32) :
    (bytesToFes bytes).length = 52 := by
  have hb : (bytes.flatMap natBits8).length = 256 := by
    rw [length_flatMap_natBits8, hlen]
  simp only [bytesToFes]
  rw [List.length_map, chunk5_length _ (by simp [hb])]
  simp [hb]

/-- Splitting after appending a separator and separator-free data recovers
both parts. -/
theorem splitLastSep_append (pre L : List Char) (h1 : ∀ x ∈ L, x ≠ '1') :
    splitLastSep (pre ++ '1' :: L) = some (pre, L) := by
  simp only [splitLastSep]
  have hrev : (pre ++ '1' :: L).reverse = L.reverse ++ ('1' :: pre.reverse) := by
    rw [List.reverse_append, List.reverse_cons, List.append_assoc, List.singleton_append]
  rw [hrev]
  have hall : ∀ x ∈ L.reverse, (fun c => decide (c ≠ '1')) x = true := by
    intro x hx
    simp [h1 x (List.mem_reverse.mp hx)]
  have htw : List.takeWhile (fun c => decide (c ≠ '1'))
      (L.reverse ++ ('1' :: pre.reverse)) = L.reverse := by
    rw [List.takeWhile_append, takeWhile_eq_self_of_all _ _ hall, if_pos rfl,
      List.takeWhile_cons_of_neg (by decide), List.append_nil]
  rw [htw, List.drop_left]
  simp [List.reverse_reverse]

/-- Decoding an encoded npub restores the human-readable part and bytes. -/
theorem bech32_decode_encode (bytes : List Nat) (hmem : ∀ b ∈ bytes, b < 256)
    (hlen : bytes.length = 32) :
    bech32DecodeList (bech32EncodeList "npub".data bytes) = some ("npub".data, bytes) := by
  have hdata_lt : ∀ v ∈ bytesToFes bytes, v < 32 := bytesToFes_lt bytes
  have hcs_lt : ∀ v ∈ createChecksum "npub".data (bytesToFes bytes), v < 32 :=
    createChecksum_lt _ _
  have hfes_lt : ∀ v ∈ bytesToFes bytes ++ createChecksum "npub".data (bytesToFes bytes),
      v < 32 := by
    intro v hv
    rcases List.mem_append.mp hv with h | h
    · exact hdata_lt v h
    · exact hcs_lt v h
  have hdlen : (bytesToFes bytes).length = 52 := bytesToFes_length32 bytes hlen
  have hcslen : (createChecksum "npub".data (bytesToFes bytes)).length = 6 := by
    simp [createChecksum]
  have hfeslen : (bytesToFes bytes ++ createChecksum "npub".data (bytesToFes bytes)).length
      = 58 := by
    simp [hdlen, hcslen]
  have hver : verifyChecksum "npub".data
      (bytesToFes bytes ++ createChecksum "npub".data (bytesToFes bytes)) = true := by
    unfold verifyChecksum
    rw [beq_iff_eq, ← List.append_assoc]
    unfold polymod
    rw [List.foldl_append]
    simp only [createChecksum, polymod]
    simp only [List.foldl_append]
    exact foldl_polymodStep_checksum
      (List.foldl polymodStep 1 (hrpExpand "npub".data ++ bytesToFes bytes))
  have hupper : (("npub".data ++ '1' :: List.map feToChar
      (bytesToFes bytes ++ createChecksum "npub".data (bytesToFes bytes))).any
        Char.isUpper) = false := by
    rw [List.any_eq_false]
    intro x hx
    rcases List.mem_append.mp hx with hx1 | hx2
    · exact (by decide : ∀ x ∈ "npub".data, ¬ Char.isUpper x = true) x hx1
    · rcases List.mem_cons.mp hx2 with rfl | hx3
      · decide
      · obtain ⟨v, hv, rfl⟩ := List.mem_map.mp hx3
        simp [feToChar_not_upper v]
  have hlower : List.map Char.toLower ("npub".data ++ '1' :: List.map feToChar
        (bytesToFes bytes ++ createChecksum "npub".data (bytesToFes bytes)))
      = "npub".data ++ '1' :: List.map feToChar
        (bytesToFes bytes ++ createChecksum "npub".data (bytesToFes bytes)) := by
    have hid : ∀ x ∈ "npub".data ++ '1' :: List.map feToChar
        (bytesToFes bytes ++ createChecksum "npub".data (bytesToFes bytes)),
        Char.toLower x = x := by
      intro x hx
      rcases List.mem_append.mp hx with hx1 | hx2
      · exact (by decide : ∀ x ∈ "npub".data, Char.toLower x = x) x hx1
      · rcases List.mem_cons.mp hx2 with rfl | hx3
        · decide
        · obtain ⟨v, hv, rfl⟩ := List.mem_map.mp hx3
          exact toLower_feToChar v
    rw [List.map_congr_left hid, show (fun a : Char => a) = @id Char from rfl,
      List.map_id]
  have hno1 : ∀ x ∈ List.map feToChar
      (bytesToFes bytes ++ createChecksum "npub".data (bytesToFes bytes)), x ≠ '1' := by
    intro x hx
    obtain ⟨v, hv, rfl⟩ := List.mem_map.mp hx
    exact feToChar_ne_one v
  have hfes : charsToFes (List.map feToChar
        (bytesToFes bytes ++ createChecksum "npub".data (bytesToFes bytes)))
      = some (bytesToFes bytes ++ createChecksum "npub".data (bytesToFes bytes)) :=
    charsToFes_map_feToChar _ hfes_lt
  have htake : (bytesToFes bytes ++ createChecksum "npub".data (bytesToFes bytes)).take 52
      = bytesToFes bytes := by
    rw [← hdlen, List.take_left]
  have hbytes : fesToBytes (bytesToFes bytes) = some bytes :=
    fesToBytes_bytesToFes bytes hmem hlen
  simp only [bech32EncodeList, bech32DecodeList]
  rw [hupper]
  simp only [Bool.false_and, Bool.false_eq_true, if_false]
  rw [hlower, splitLastSep_append "npub".data _ hno1]
  simp only [hfes, hfeslen, hver]
  norm_num
  rw [htake, hbytes]

/-- C10 (amended): for every 32-byte public key given as a 64-character
lower-case hex string, `hex_to_npub` then `npub_to_hex` is the identity
(upper-case input round-trips to its lower-case form instead, since
`hex::encode` emits lower case); and `hex_to_npub` returns `none` for
every input that does not decode to exactly 32 bytes. -/
theorem npub_hex_roundtrip :
    (∀ s : String, s.data.length = 64 → (∀ c ∈ s.data, isLowerHexDigit c = true) →
      ∃ np, hex_to_npub s = some np ∧ npub_to_hex np = some s) ∧
    (∀ s : String,
      (match hexDecodeList s.data with
        | some bs => bs.length ≠ 32
        | none => True) → hex_to_npub s = none) := by
  constructor
  · intro s h64 hlow
    obtain ⟨bs, hbs, hlen2⟩ := hexDecodeList_of_lower s.data hlow (by rw [h64])
    have hbs32 : bs.length = 32 := by omega
    have hmem : ∀ b ∈ bs, b < 256 := (hexDecodeList_bytes s.data bs hbs).2
    refine ⟨String.mk (bech32EncodeList "npub".data bs), ?_, ?_⟩
    · simp [hex_to_npub, hbs, hbs32]
    · unfold npub_to_hex
      rw [show (String.mk (bech32EncodeList "npub".data bs)).data
          = bech32EncodeList "npub".data bs from rfl]
      rw [bech32_decode_encode bs hmem hbs32]
      show (if "npub".data = "npub".data then some (String.mk (hexEncodeList bs))
        else none) = some s
      rw [if_pos rfl, hexEncodeList_hexDecodeList s.data bs hlow hbs]
  · intro s hbad
    unfold hex_to_npub
    cases hd : hexDecodeList s.data with
    | none => rfl
    | some bs =>
      rw [hd] at hbad
      have hb : bs.length ≠ 32 := hbad
      simp [hb]

/-- C10 witness: the all-`aa` 32-byte key round-trips through its npub. -/
theorem npub_hex_roundtrip_witness :
    ∃ np, hex_to_npub
        "aaaaaaaaaaaaaaaaaaaaaaaaaaaaaaaaaaaaaaaaaaaaaaaaaaaaaaaaaaaaaaaa"
        = some np ∧
      npub_to_hex np
        = some "aaaaaaaaaaaaaaaaaaaaaaaaaaaaaaaaaaaaaaaaaaaaaaaaaaaaaaaaaaaaaaaa" :=
  npub_hex_roundtrip.1
    "aaaaaaaaaaaaaaaaaaaaaaaaaaaaaaaaaaaaaaaaaaaaaaaaaaaaaaaaaaaaaaaa"
    (by decide) (by decide)

/-- C10 counterexample: an upper-case 64-character hex key converts to an
npub and back to the lower-case hex string, which differs from the
original, so the round trip is not the identity on every 64-character hex
input. -/
theorem npub_hex_roundtrip_case_counterexample :
    (hex_to_npub
        "3BF0C63FCB93463407AF97A5E5EE64FA883D107EF9E558472C4EB9AAAEFA459D").bind
        npub_to_hex
      = some "3bf0c63fcb93463407af97a5e5ee64fa883d107ef9e558472c4eb9aaaefa459d" ∧
    ("3bf0c63fcb93463407af97a5e5ee64fa883d107ef9e558472c4eb9aaaefa459d" : String)
      ≠ "3BF0C63FCB93463407AF97A5E5EE64FA883D107EF9E558472C4EB9AAAEFA459D" := by
  decide

end Burrow
